import Mathlib

/-!
# Verification of the kona span-batch EIP-1559 codec and the trusted-sync driver loop

This development shallowly embeds two source files of the repository:

* `crates/derive/src/types/batch/span_batch/tx_data/eip1559.rs` — the
  `SpanBatchEip1559TransactionData` record together with its `alloy_rlp`
  `Encodable`/`Decodable` implementations and `to_enveloped_tx`.  The RLP
  primitives used by that file (`Header::{encode,decode}`, the `[u8]`,
  `Uint<256>`, `FixedBytes<N>` and `Vec<T>` codecs from `alloy_rlp`/`ruint`/
  `alloy_primitives`, and the derived codecs of `AccessList`/`AccessListItem`)
  are embedded as well, following their Rust sources.
* `examples/trusted-sync/src/main.rs` — the driver loop of `sync`, embedded as
  a state-transition function over per-iteration oracle answers of the external
  collaborators (pipeline, validator, L2 provider).

Bytes are modelled as `Nat` values; hypotheses of the form `b < 256` record the
`u8` typing of the Rust byte slices, and `< 2 ^ 64` hypotheses record `usize`.
-/

deriving instance DecidableEq for Except

namespace Kona

/-! ## Byte-sequence arithmetic

`beBytesToNat` is big-endian interpretation of a byte slice (as performed by
`u128::from_be_bytes` / `u64::from_be_bytes` / `Uint::try_from_be_slice`);
`natToBeBytes` is the minimal big-endian representation
(`to_be_bytes_trimmed`). -/

/-- Big-endian interpretation of a byte sequence. -/
def beBytesToNat (bs : List Nat) : Nat :=
  bs.foldl (fun acc b => acc * 256 + b) 0

/-- Helper for `natToBeBytes`: the first argument is fuel, consumed once per
emitted byte, so the recursion is structural and kernel-reducible. -/
def natToBeBytesAux : Nat → Nat → List Nat
  | _, 0 => []
  | 0, _ + 1 => []
  | fuel + 1, n + 1 =>
    natToBeBytesAux fuel ((n + 1) / 256) ++ [(n + 1) % 256]

/-- Minimal big-endian byte representation of a natural number (empty for 0). -/
def natToBeBytes (n : Nat) : List Nat :=
  natToBeBytesAux n n

theorem natToBeBytesAux_eq_digits (fuel : Nat) :
    ∀ n, n ≤ fuel → natToBeBytesAux fuel n = (Nat.digits 256 n).reverse := by
  induction fuel with
  | zero =>
    intro n hn
    interval_cases n
    simp [natToBeBytesAux]
  | succ fuel ih =>
    intro n hn
    rcases n with _ | m
    · simp [natToBeBytesAux]
    · rw [natToBeBytesAux]
      have hdiv : (m + 1) / 256 ≤ fuel := by
        have := Nat.div_lt_self (Nat.succ_pos m) (by norm_num : 1 < 256)
        omega
      rw [ih ((m + 1) / 256) hdiv,
        Nat.digits_def' (by norm_num : 1 < 256) (Nat.succ_pos m),
        List.reverse_cons]

theorem natToBeBytes_eq_digits (n : Nat) :
    natToBeBytes n = (Nat.digits 256 n).reverse :=
  natToBeBytesAux_eq_digits n n le_rfl

/-- A byte sequence is valid when every entry fits in a `u8`. -/
def ValidBytes (bs : List Nat) : Prop := ∀ b ∈ bs, b < 256

instance (bs : List Nat) : Decidable (ValidBytes bs) := by
  unfold ValidBytes; infer_instance

theorem beBytesToNat_eq_ofDigits (bs : List Nat) :
    beBytesToNat bs = Nat.ofDigits 256 bs.reverse := by
  induction bs using List.reverseRecOn with
  | nil => simp [beBytesToNat]
  | append_singleton xs x ih =>
    simp only [beBytesToNat, List.foldl_append, List.foldl_cons, List.foldl_nil,
      List.reverse_append, List.reverse_cons, List.reverse_nil, List.nil_append,
      List.singleton_append, Nat.ofDigits_cons]
    rw [← beBytesToNat, ih]
    ring

theorem beBytesToNat_natToBeBytes (n : Nat) :
    beBytesToNat (natToBeBytes n) = n := by
  rw [beBytesToNat_eq_ofDigits, natToBeBytes_eq_digits, List.reverse_reverse,
    Nat.ofDigits_digits]

theorem natToBeBytes_valid (n : Nat) : ValidBytes (natToBeBytes n) := by
  intro b hb
  rw [natToBeBytes_eq_digits, List.mem_reverse] at hb
  exact Nat.digits_lt_base (by norm_num) hb

/-- Canonicity: a valid byte sequence with a non-zero leading byte is the
minimal big-endian representation of its value. -/
theorem natToBeBytes_beBytesToNat (bs : List Nat) (hv : ValidBytes bs)
    (hh : ∀ c ct, bs = c :: ct → c ≠ 0) :
    natToBeBytes (beBytesToNat bs) = bs := by
  rw [beBytesToNat_eq_ofDigits, natToBeBytes_eq_digits]
  rw [Nat.digits_ofDigits 256 (by norm_num) bs.reverse
    (fun l hl => hv l (List.mem_reverse.mp hl))
    (fun h => ?_), List.reverse_reverse]
  cases bs with
  | nil => simp at h
  | cons c ct =>
    have h1 : (c :: ct).reverse.getLast? = some c := by
      rw [List.getLast?_reverse]
      rfl
    have h2 := List.getLast?_eq_getLast (c :: ct).reverse h
    rw [h2] at h1
    rw [Option.some.inj h1]
    exact hh c ct rfl

theorem natToBeBytes_zero : natToBeBytes 0 = [] := by
  simp [natToBeBytes, natToBeBytesAux]

theorem natToBeBytes_eq_nil_iff (n : Nat) : natToBeBytes n = [] ↔ n = 0 := by
  constructor
  · intro h
    have := beBytesToNat_natToBeBytes n
    rw [h] at this
    simpa [beBytesToNat] using this.symm
  · intro h; simp [h, natToBeBytes_zero]

theorem natToBeBytes_head_ne_zero (n c : Nat) (ct : List Nat)
    (h : natToBeBytes n = c :: ct) : c ≠ 0 := by
  have hn : n ≠ 0 := by
    intro h0
    rw [h0, natToBeBytes_zero] at h
    exact List.noConfusion h
  have hne : Nat.digits 256 n ≠ [] := Nat.digits_ne_nil_iff_ne_zero.mpr hn
  have hlast := Nat.getLast_digit_ne_zero 256 hn
  have h1 : (Nat.digits 256 n).reverse.head? = some c := by
    rw [← natToBeBytes_eq_digits, h]
    rfl
  rw [List.head?_reverse] at h1
  have h2 := List.getLast?_eq_getLast (Nat.digits 256 n) hne
  rw [h2] at h1
  rw [← Option.some.inj h1]
  exact hlast

theorem natToBeBytes_length_le (n k : Nat) (h : n < 256 ^ k) :
    (natToBeBytes n).length ≤ k := by
  rw [natToBeBytes_eq_digits, List.length_reverse]
  by_contra hlt
  push_neg at hlt
  rcases Nat.eq_zero_or_pos n with rfl | hn
  · simp at hlt
  have h1 : 256 ^ (Nat.digits 256 n).length ≤ 256 * n :=
    Nat.base_pow_length_digits_le 256 n (by norm_num) (Nat.pos_iff_ne_zero.mp hn)
  have h2 : (256 : Nat) ^ (k + 1) ≤ 256 ^ (Nat.digits 256 n).length :=
    Nat.pow_le_pow_right (by norm_num) hlt
  have h3 : (256 : Nat) ^ (k + 1) ≤ 256 * n := le_trans h2 h1
  rw [pow_succ, mul_comm] at h3
  have := Nat.le_of_mul_le_mul_left h3 (by norm_num : 0 < 256)
  omega

theorem lt_pow_of_natToBeBytes_length (n k : Nat)
    (h : (natToBeBytes n).length ≤ k) : n < 256 ^ k := by
  rw [natToBeBytes_eq_digits, List.length_reverse] at h
  calc n < 256 ^ (Nat.digits 256 n).length :=
        Nat.lt_base_pow_length_digits (by norm_num)
    _ ≤ 256 ^ k := Nat.pow_le_pow_right (by norm_num) h

theorem beBytesToNat_lt (bs : List Nat) (hv : ValidBytes bs) :
    beBytesToNat bs < 256 ^ bs.length := by
  rw [beBytesToNat_eq_ofDigits]
  have := Nat.ofDigits_lt_base_pow_length (b := 256) (l := bs.reverse)
    (by norm_num) (fun x hx => hv x (List.mem_reverse.mp hx))
  simpa using this

theorem beBytesToNat_append (a b : List Nat) :
    beBytesToNat (a ++ b) = beBytesToNat a * 256 ^ b.length + beBytesToNat b := by
  induction b using List.reverseRecOn with
  | nil => simp [beBytesToNat]
  | append_singleton xs x ih =>
    have h1 : beBytesToNat ((a ++ xs) ++ [x]) = beBytesToNat (a ++ xs) * 256 + x := by
      simp [beBytesToNat, List.foldl_append]
    have h2 : beBytesToNat (xs ++ [x]) = beBytesToNat xs * 256 + x := by
      simp [beBytesToNat, List.foldl_append]
    rw [← List.append_assoc, h1, ih, h2]
    simp [List.length_append, pow_succ]
    ring

theorem beBytesToNat_replicate_zero_append (k : Nat) (bs : List Nat) :
    beBytesToNat (List.replicate k 0 ++ bs) = beBytesToNat bs := by
  rw [beBytesToNat_append]
  have : beBytesToNat (List.replicate k 0) = 0 := by
    induction k with
    | zero => simp [beBytesToNat]
    | succ m ih =>
      rw [List.replicate_succ]
      simpa [beBytesToNat] using ih
  simp [this]

/-! ## RLP primitives (`alloy_rlp`)

The encoders follow `alloy_rlp::Header::encode`, the `[u8]` slice encoder and
`ruint`'s `Uint` encoder; the decoders follow `Header::decode`,
`Header::decode_bytes` and the `Uint`, `FixedBytes<N>` and `Vec<T>`
`Decodable` implementations.  Buffers are passed explicitly: a decoder takes
the remaining input and returns the decoded value together with the rest of
the input (the Rust code advances a `&mut &[u8]`). -/

/-- Errors of `alloy_rlp`, plus the two `Error::Custom` messages of the
eip1559 decoder (represented through `custom`). -/
inductive RlpError where
  | inputTooShort
  | nonCanonicalSingleByte
  | nonCanonicalSize
  | leadingZero
  | overflow
  | unexpectedString
  | unexpectedList
  | unexpectedLength
  | listLengthMismatch
  | custom (msg : String)
deriving DecidableEq

/-- `alloy_rlp::Header`. -/
structure RlpHeader where
  list : Bool
  payload_length : Nat
deriving DecidableEq

/-- `alloy_rlp::length_of_length`: number of bytes a header prefix occupies. -/
def lengthOfLength (len : Nat) : Nat :=
  if len < 56 then 1 else 1 + (natToBeBytes len).length

/-- `alloy_rlp::Header::encode`: single code byte for short payloads, code
byte plus the minimal big-endian payload length otherwise. -/
def encodeHeader (isList : Bool) (len : Nat) : List Nat :=
  if len < 56 then
    [(if isList then 0xc0 else 0x80) + len]
  else
    ((if isList then 0xf7 else 0xb7) + (natToBeBytes len).length) :: natToBeBytes len

/-- The long-form tail of `alloy_rlp::Header::decode` (both the `0xB8..=0xBF`
string arm and the `0xF8..=0xFF` list arm): read `lenOfLen` length bytes,
reject a leading zero, reject lengths below 56, and check the remaining
input covers the payload. -/
def decodeLongHeader (isList : Bool) (lenOfLen : Nat) (rest : List Nat) :
    Except RlpError (RlpHeader × List Nat) :=
  if 8 < lenOfLen then .error .overflow
  else if rest.length < lenOfLen then .error .inputTooShort
  else
    match rest.take lenOfLen with
    | [] => .error .inputTooShort
    | z :: zs =>
      if z = 0 then .error .leadingZero
      else
        let pl := beBytesToNat (z :: zs)
        if pl < 56 then .error .nonCanonicalSize
        else if (rest.drop lenOfLen).length < pl then .error .inputTooShort
        else .ok (⟨isList, pl⟩, rest.drop lenOfLen)

/-- `alloy_rlp::Header::decode`.  A single byte below `0x80` is a length-1
string and the buffer is not advanced; otherwise the code byte (and any
length bytes) are consumed and the remaining input must cover the declared
payload. -/
def decodeHeader (buf : List Nat) : Except RlpError (RlpHeader × List Nat) :=
  match buf with
  | [] => .error .inputTooShort
  | b :: rest =>
    if b < 0x80 then .ok (⟨false, 1⟩, b :: rest)
    else if b ≤ 0xb7 then
      let pl := b - 0x80
      if pl = 1 then
        match rest with
        | [] => .error .inputTooShort
        | c :: ct =>
          if c < 0x80 then .error .nonCanonicalSingleByte
          else .ok (⟨false, 1⟩, c :: ct)
      else if rest.length < pl then .error .inputTooShort
      else .ok (⟨false, pl⟩, rest)
    else if b ≤ 0xbf then decodeLongHeader false (b - 0xb7) rest
    else if b ≤ 0xf7 then
      let pl := b - 0xc0
      if rest.length < pl then .error .inputTooShort
      else .ok (⟨true, pl⟩, rest)
    else decodeLongHeader true (b - 0xf7) rest

/-- `alloy_rlp::Header::decode_bytes`: decode a header, require the expected
shape, and split off the payload. -/
def decodeBytesH (isList : Bool) (buf : List Nat) :
    Except RlpError (List Nat × List Nat) :=
  match decodeHeader buf with
  | .error e => .error e
  | .ok (h, rest) =>
    if h.list = isList then
      .ok (rest.take h.payload_length, rest.drop h.payload_length)
    else
      .error (if isList then .unexpectedString else .unexpectedList)

/-- `impl Encodable for [u8]`: a single byte below `0x80` encodes as itself;
any other slice is prefixed by a string header. -/
def encodeBytes (bs : List Nat) : List Nat :=
  if bs.length = 1 ∧ bs.headI < 0x80 then bs
  else encodeHeader false bs.length ++ bs

/-- `<[u8] as Encodable>::length`. -/
def rlpLenBytes (bs : List Nat) : Nat :=
  if bs.length = 1 ∧ bs.headI < 0x80 then 1
  else lengthOfLength bs.length + bs.length

/-- `impl Encodable for Uint<256, 4>` (`ruint`): the minimal big-endian bytes
of the value, encoded as a slice. -/
def encodeUint (n : Nat) : List Nat :=
  encodeBytes (natToBeBytes n)

/-- `<Uint<256, 4> as Encodable>::length`. -/
def rlpLenUint (n : Nat) : Nat :=
  if n < 0x80 then 1
  else (natToBeBytes n).length + lengthOfLength (natToBeBytes n).length

/-- `impl Decodable for Uint<256, 4>`: a string payload without a leading
zero whose value fits in 256 bits. -/
def decodeU256 (buf : List Nat) : Except RlpError (Nat × List Nat) :=
  match decodeBytesH false buf with
  | .error e => .error e
  | .ok (bytes, rest) =>
    match bytes with
    | 0 :: _ => .error .leadingZero
    | bytes =>
      let v := beBytesToNat bytes
      if v < 2 ^ 256 then .ok (v, rest) else .error .overflow

/-- `impl Decodable for Bytes`: any string payload. -/
def decodeBytesRlp (buf : List Nat) : Except RlpError (List Nat × List Nat) :=
  decodeBytesH false buf

/-- `impl Decodable for [u8; N]` (used through `FixedBytes<N>`, i.e.
`Address`/`B256`): a string payload of exactly `n` bytes. -/
def decodeFixedBytes (n : Nat) (buf : List Nat) :
    Except RlpError (List Nat × List Nat) :=
  match decodeBytesH false buf with
  | .error e => .error e
  | .ok (bytes, rest) =>
    if bytes.length = n then .ok (bytes, rest) else .error .unexpectedLength

/-- The item loop of `impl Decodable for Vec<T>`: decode items from the
isolated payload until it is empty.  The fuel argument bounds the number of
items; every successful `alloy_rlp` item decode consumes at least one byte,
so fuel equal to the payload length never runs out. -/
def decodeItems {α : Type} (dec : List Nat → Except RlpError (α × List Nat)) :
    Nat → List Nat → Except RlpError (List α)
  | _, [] => .ok []
  | 0, _ :: _ => .error (.custom "list item decoding made no progress")
  | fuel + 1, b :: rest =>
    match dec (b :: rest) with
    | .error e => .error e
    | .ok (x, rem) =>
      match decodeItems dec fuel rem with
      | .error e => .error e
      | .ok xs => .ok (x :: xs)

/-- `impl Decodable for Vec<T>`: a list header followed by its payload,
decoded item by item. -/
def decodeVec {α : Type} (dec : List Nat → Except RlpError (α × List Nat))
    (buf : List Nat) : Except RlpError (List α × List Nat) :=
  match decodeBytesH true buf with
  | .error e => .error e
  | .ok (payload, rest) =>
    match decodeItems dec payload.length payload with
    | .error e => .error e
    | .ok xs => .ok (xs, rest)

/-! ## Access lists (`alloy_eips::eip2930`, re-exported by the repository)

`AccessList` is a `Vec<AccessListItem>` encoded through the `Wrapper` RLP
derives (no extra header of its own); `AccessListItem` has the derived
`RlpEncodable`/`RlpDecodable` instances over `address: Address` and
`storage_keys: Vec<B256>`. -/

/-- `AccessListItem`: a 20-byte address and a sequence of 32-byte storage
keys (byte lengths recorded by `AccessListItem.Wf`). -/
structure AccessListItem where
  address : List Nat
  storage_keys : List (List Nat)
deriving DecidableEq

/-- Rust-typing invariant of an `AccessListItem`. -/
def AccessListItem.Wf (it : AccessListItem) : Prop :=
  it.address.length = 20 ∧ ValidBytes it.address ∧
    ∀ k ∈ it.storage_keys, k.length = 32 ∧ ValidBytes k

instance (it : AccessListItem) : Decidable it.Wf := by
  unfold AccessListItem.Wf; infer_instance

/-- Payload length of the `Vec<B256>` list of storage keys. -/
def keysPayloadLen (keys : List (List Nat)) : Nat :=
  (keys.map rlpLenBytes).sum

/-- `<Vec<B256> as Encodable>::encode`. -/
def encodeKeys (keys : List (List Nat)) : List Nat :=
  encodeHeader true (keysPayloadLen keys) ++ (keys.map encodeBytes).flatten

/-- `<Vec<B256> as Encodable>::length`. -/
def rlpLenKeys (keys : List (List Nat)) : Nat :=
  lengthOfLength (keysPayloadLen keys) + keysPayloadLen keys

/-- Payload length of an encoded `AccessListItem` (address plus keys). -/
def AccessListItem.payloadLen (it : AccessListItem) : Nat :=
  rlpLenBytes it.address + rlpLenKeys it.storage_keys

/-- Derived `<AccessListItem as Encodable>::encode`. -/
def AccessListItem.encodeIt (it : AccessListItem) : List Nat :=
  encodeHeader true it.payloadLen ++ encodeBytes it.address ++ encodeKeys it.storage_keys

/-- Derived `<AccessListItem as Encodable>::length`. -/
def AccessListItem.rlpLen (it : AccessListItem) : Nat :=
  lengthOfLength it.payloadLen + it.payloadLen

/-- Derived `<AccessListItem as Decodable>::decode`: list header, the two
fields in order, and the generated consumed-length check. -/
def AccessListItem.decodeIt (buf : List Nat) :
    Except RlpError (AccessListItem × List Nat) :=
  match decodeHeader buf with
  | .error e => .error e
  | .ok (h, rest) =>
    if h.list then
      let started_len := rest.length
      match decodeFixedBytes 20 rest with
      | .error e => .error e
      | .ok (address, rest1) =>
        match decodeVec (decodeFixedBytes 32) rest1 with
        | .error e => .error e
        | .ok (storage_keys, rest2) =>
          if started_len - rest2.length = h.payload_length then
            .ok (⟨address, storage_keys⟩, rest2)
          else .error .listLengthMismatch
    else .error .unexpectedString

/-- Payload length of the encoded `AccessList` wrapper (`Vec<AccessListItem>`). -/
def accessListPayloadLen (items : List AccessListItem) : Nat :=
  (items.map AccessListItem.rlpLen).sum

/-- `<AccessList as Encodable>::encode` (wrapper derive: the inner `Vec`). -/
def encodeAccessList (items : List AccessListItem) : List Nat :=
  encodeHeader true (accessListPayloadLen items) ++
    (items.map AccessListItem.encodeIt).flatten

/-- `<AccessList as Encodable>::length`. -/
def rlpLenAccessList (items : List AccessListItem) : Nat :=
  lengthOfLength (accessListPayloadLen items) + accessListPayloadLen items

/-- `<AccessList as Decodable>::decode` (wrapper derive: the inner `Vec`). -/
def decodeAccessList (buf : List Nat) :
    Except RlpError (List AccessListItem × List Nat) :=
  decodeVec AccessListItem.decodeIt buf

/-! ## `SpanBatchEip1559TransactionData` (eip1559.rs) -/

/-- The per-transaction EIP-1559 record of a span batch.  `value`,
`max_fee_per_gas` and `max_priority_fee_per_gas` are `U256` in the source
(`< 2 ^ 256` in `Wf`); `data` is `Bytes`. -/
structure SpanBatchEip1559TransactionData where
  value : Nat
  max_fee_per_gas : Nat
  max_priority_fee_per_gas : Nat
  data : List Nat
  access_list : List AccessListItem
deriving DecidableEq

namespace SpanBatchEip1559TransactionData

/-- The `payload_length` computed by `<SpanBatchEip1559TransactionData as
Encodable>::encode` from the fields' `length()` methods. -/
def payload_length (r : SpanBatchEip1559TransactionData) : Nat :=
  rlpLenUint r.value + rlpLenUint r.max_fee_per_gas +
    rlpLenUint r.max_priority_fee_per_gas + rlpLenBytes r.data +
    rlpLenAccessList r.access_list

/-- `<SpanBatchEip1559TransactionData as Encodable>::encode`: list header
with the computed payload length, then the five fields in order. -/
def encodeTx (r : SpanBatchEip1559TransactionData) : List Nat :=
  encodeHeader true r.payload_length ++
    encodeUint r.value ++ encodeUint r.max_fee_per_gas ++
    encodeUint r.max_priority_fee_per_gas ++ encodeBytes r.data ++
    encodeAccessList r.access_list

/-- `<SpanBatchEip1559TransactionData as Decodable>::decode`: list header,
five fields in order, and the consumed-length check against the header. -/
def decodeTx (buf : List Nat) :
    Except RlpError (SpanBatchEip1559TransactionData × List Nat) :=
  match decodeHeader buf with
  | .error e => .error e
  | .ok (h, buf0) =>
    if h.list then
      let buf_len_start := buf0.length
      match decodeU256 buf0 with
      | .error e => .error e
      | .ok (value, buf1) =>
        match decodeU256 buf1 with
        | .error e => .error e
        | .ok (max_fee_per_gas, buf2) =>
          match decodeU256 buf2 with
          | .error e => .error e
          | .ok (max_priority_fee_per_gas, buf3) =>
            match decodeBytesRlp buf3 with
            | .error e => .error e
            | .ok (data, buf4) =>
              match decodeAccessList buf4 with
              | .error e => .error e
              | .ok (access_list, buf5) =>
                if buf5.length = buf_len_start - h.payload_length then
                  .ok (⟨value, max_fee_per_gas, max_priority_fee_per_gas,
                        data, access_list⟩, buf5)
                else .error (.custom "Invalid EIP-1559 transaction RLP")
    else .error (.custom "Expected list data for EIP-1559 transaction")

/-- Rust-typing invariant of a record: the numeric fields are `U256`, the
byte fields are `u8` sequences of the typed widths, and the encoded payload
length fits in a `usize`. -/
def Wf (r : SpanBatchEip1559TransactionData) : Prop :=
  r.value < 2 ^ 256 ∧ r.max_fee_per_gas < 2 ^ 256 ∧
    r.max_priority_fee_per_gas < 2 ^ 256 ∧ ValidBytes r.data ∧
    (∀ it ∈ r.access_list, it.Wf) ∧ r.payload_length < 2 ^ 64

instance (r : SpanBatchEip1559TransactionData) : Decidable r.Wf := by
  unfold Wf; infer_instance

end SpanBatchEip1559TransactionData

/-! ## `to_enveloped_tx`

The transaction-envelope side of eip1559.rs.  The signing hash
(`TxEip1559::signature_hash`, a keccak over the RLP-encoded transaction) is
computed by `alloy` outside this repository and plays no role in the claims;
the envelope here keeps the assembled transaction and the supplied signature,
exactly the data `Signed::new_unchecked` receives. -/

/-- `alloy_primitives::Signature` (r, s, y-parity); carried opaquely. -/
structure Signature where
  r : Nat
  s : Nat
  odd_y_parity : Bool
deriving DecidableEq

/-- `alloy::TxKind`: `Call(address)` or `Create`. -/
inductive TxKind where
  | Create
  | Call (address : List Nat)
deriving DecidableEq

/-- The `TxEip1559` struct assembled by `to_enveloped_tx`; the fee fields are
`u128` in the source.  The source's `to` field is called `toKind` here
because `to` is a reserved token in this environment. -/
structure TxEip1559 where
  chain_id : Nat
  nonce : Nat
  gas_limit : Nat
  max_fee_per_gas : Nat
  max_priority_fee_per_gas : Nat
  toKind : TxKind
  value : Nat
  input : List Nat
  access_list : List AccessListItem
deriving DecidableEq

/-- `Signed<TxEip1559>` as produced by `Signed::new_unchecked` (hash elided,
see the section comment). -/
structure SignedTxEip1559 where
  tx : TxEip1559
  signature : Signature
deriving DecidableEq

/-- `TxEnvelope` restricted to the variant constructed here. -/
inductive TxEnvelope where
  | Eip1559 (signed : SignedTxEip1559)
deriving DecidableEq

/-- `SpanDecodingError` (only the variant used by eip1559.rs). -/
inductive SpanDecodingError where
  | InvalidTransactionData
deriving DecidableEq

/-- `SpanBatchError` (only the variant used by eip1559.rs). -/
inductive SpanBatchError where
  | Decoding (err : SpanDecodingError)
deriving DecidableEq

/-- `U256::to_be_bytes::<32>()`: fixed-width 32-byte big-endian form. -/
def beBytes32 (n : Nat) : List Nat :=
  List.replicate (32 - (natToBeBytes n).length) 0 ++ natToBeBytes n

/-- `<&[u8] as TryInto<[u8; 16]>>::try_into`: succeeds exactly when the slice
has length 16. -/
def tryInto16 (bs : List Nat) : Except Unit (List Nat) :=
  if bs.length = 16 then .ok bs else .error ()

/-- `SpanBatchEip1559TransactionData::to_enveloped_tx`: narrow the two fee
fields to `u128` by taking bytes `16..` of the 32-byte big-endian form
(`try_into` failure mapped to `InvalidTransactionData`), assemble the
`TxEip1559`, and wrap it with the signature. -/
def SpanBatchEip1559TransactionData.to_enveloped_tx
    (r : SpanBatchEip1559TransactionData) (nonce gas : Nat)
    (toAddr : Option (List Nat)) (chain_id : Nat) (signature : Signature) :
    Except SpanBatchError TxEnvelope :=
  match tryInto16 ((beBytes32 r.max_fee_per_gas).drop 16) with
  | .error _ => .error (.Decoding .InvalidTransactionData)
  | .ok mfBytes =>
    match tryInto16 ((beBytes32 r.max_priority_fee_per_gas).drop 16) with
    | .error _ => .error (.Decoding .InvalidTransactionData)
    | .ok mpBytes =>
      .ok (.Eip1559
        { tx :=
          { chain_id := chain_id
            nonce := nonce
            max_fee_per_gas := beBytesToNat mfBytes
            max_priority_fee_per_gas := beBytesToNat mpBytes
            gas_limit := gas
            toKind := match toAddr with
              | some a => .Call a
              | none => .Create
            value := r.value
            input := r.data
            access_list := r.access_list }
          signature := signature })

/-! ## The trusted-sync driver loop (examples/trusted-sync/src/main.rs)

The loop body of `sync` is embedded as a transition function on the mutable
loop state (`cursor`, `derived_attributes_count`).  The external
collaborators are modelled as per-iteration oracle answers: the result of
`pipeline.step` (only logged by the loop), the `pipeline.next_attributes()`
pull, the validator's verdict, and the L2 provider's answer to
`l2_block_info_by_number`.  Logging (`info!`/`warn!`/`error!`/`println!`) is
process tracing and is not modelled. -/

/-- `BlockInfo` (only the field the loop reads). -/
structure BlockInfo where
  number : Nat
  hash : Nat
deriving DecidableEq

/-- `L2BlockInfo`: the cursor type of the loop. -/
structure L2BlockInfo where
  block_info : BlockInfo
deriving DecidableEq

/-- A `PayloadAttributesEnvelope` as far as the loop inspects it; its
contents are only handed to the validator and logged. -/
structure PayloadAttributesEnvelope where
  parent : L2BlockInfo
  timestamp : Nat
deriving DecidableEq

/-- Outcome of `pipeline.step(cursor)`; the loop only logs it. -/
inductive StepOutcome where
  | stepped
  | failed
deriving DecidableEq

/-- A transient provider failure. -/
structure FetchError where
  code : Nat
deriving DecidableEq

/-- The answers of the external collaborators during one loop iteration. -/
structure IterationOracle where
  step_result : StepOutcome
  next_attributes : Option PayloadAttributesEnvelope
  validate : PayloadAttributesEnvelope → Bool
  l2_block_info_by_number : Nat → Except FetchError L2BlockInfo

/-- The mutable state of the loop in `sync`. -/
structure SyncState where
  cursor : L2BlockInfo
  derived_attributes_count : Nat
deriving DecidableEq

/-- Result of one loop iteration: either the loop continues with the new
state, or the `return Ok(())` after a failed validation ends it. -/
inductive IterationResult where
  | next (s : SyncState)
  | terminated (s : SyncState)
deriving DecidableEq

/-- The state reached at the end of an iteration. -/
def IterationResult.state : IterationResult → SyncState
  | .next s => s
  | .terminated s => s

/-- One iteration of the `loop` in `sync`: step the pipeline (result only
logged), pull attributes if ready, validate (failure returns from `sync`),
bump the counter, and advance the cursor to block `cursor.number + 1` if the
L2 provider fetch succeeds (keeping the old cursor otherwise). -/
def syncIteration (o : IterationOracle) (s : SyncState) : IterationResult :=
  match o.next_attributes with
  | some attributes =>
    if ¬ o.validate attributes then .terminated s
    else
      let s1 : SyncState :=
        { s with derived_attributes_count := s.derived_attributes_count + 1 }
      match o.l2_block_info_by_number (s.cursor.block_info.number + 1) with
      | .ok bi => .next { s1 with cursor := bi }
      | .error _ => .next s1
  | none => .next s

/-- The unbounded `loop` of `sync`, run against a finite script of oracle
answers: it either returns out of `sync` on a validation failure (the only
`return` in the loop) or exhausts the script. -/
inductive LoopOutcome where
  | returned (s : SyncState)
  | scriptOver (s : SyncState)
deriving DecidableEq

/-- Run the loop over a script of per-iteration oracle answers. -/
def syncLoop (s : SyncState) : List IterationOracle → LoopOutcome
  | [] => .scriptOver s
  | o :: rest =>
    match syncIteration o s with
    | .terminated s1 => .returned s1
    | .next s1 => syncLoop s1 rest

/-! ## Helper lemmas about the RLP primitives -/

theorem take_append_length (a b : List Nat) : (a ++ b).take a.length = a := by
  simp

theorem drop_append_length (a b : List Nat) : (a ++ b).drop a.length = b := by
  simp

theorem encodeHeader_length (isList : Bool) (n : Nat) :
    (encodeHeader isList n).length = lengthOfLength n := by
  unfold encodeHeader lengthOfLength
  split <;> simp [Nat.add_comm]

theorem encodeHeader_ne_nil (isList : Bool) (n : Nat) :
    encodeHeader isList n ≠ [] := by
  unfold encodeHeader
  split <;> simp

theorem natToBeBytes_len_pos (n : Nat) (h : 0 < n) :
    0 < (natToBeBytes n).length := by
  rcases hb : natToBeBytes n with _ | ⟨c, ct⟩
  · rw [natToBeBytes_eq_nil_iff] at hb; omega
  · simp

theorem decodeHeader_encodeHeader (isList : Bool) (n : Nat) (rest : List Nat)
    (hn : n < 2 ^ 64) (hone : isList = false → n ≠ 1) (hr : n ≤ rest.length) :
    decodeHeader (encodeHeader isList n ++ rest) = .ok (⟨isList, n⟩, rest) := by
  by_cases hs : n < 56
  · cases isList with
    | false =>
      have henc : encodeHeader false n ++ rest = (0x80 + n) :: rest := by
        simp [encodeHeader, if_pos hs]
      rw [henc]
      have hne : ¬ (0x80 + n < 0x80) := by omega
      have hb7 : 0x80 + n ≤ 0xb7 := by omega
      have hpl : 0x80 + n - 0x80 = n := by omega
      have h6 : ¬ (rest.length < n) := by omega
      have h7 : ¬ n = 1 := hone rfl
      simp only [decodeHeader]
      simp only [if_neg hne, if_pos hb7, hpl, if_neg h7, if_neg h6]
    | true =>
      have henc : encodeHeader true n ++ rest = (0xc0 + n) :: rest := by
        simp [encodeHeader, if_pos hs]
      rw [henc]
      have h1 : ¬ (0xc0 + n < 0x80) := by omega
      have h2 : ¬ (0xc0 + n ≤ 0xb7) := by omega
      have h3 : ¬ (0xc0 + n ≤ 0xbf) := by omega
      have h4 : 0xc0 + n ≤ 0xf7 := by omega
      have h5 : 0xc0 + n - 0xc0 = n := by omega
      have h6 : ¬ (rest.length < n) := by omega
      simp only [decodeHeader]
      simp only [if_neg h1, if_neg h2, if_neg h3, if_pos h4, h5, if_neg h6]
  · obtain ⟨z, zs, hb⟩ : ∃ z zs, natToBeBytes n = z :: zs := by
      rcases h : natToBeBytes n with _ | ⟨z, zs⟩
      · rw [natToBeBytes_eq_nil_iff] at h; omega
      · exact ⟨z, zs, rfl⟩
    have hz : z ≠ 0 := natToBeBytes_head_ne_zero n z zs hb
    have hL8 : (z :: zs).length ≤ 8 := hb ▸ natToBeBytes_length_le n 8 hn
    have hv : beBytesToNat (z :: zs) = n := by
      rw [← hb, beBytesToNat_natToBeBytes]
    have h8 : ¬ (8 < (z :: zs).length) := by omega
    have hlen : ¬ (((z :: zs) ++ rest).length < (z :: zs).length) := by
      rw [List.length_append]; omega
    have h56 : ¬ (n < 56) := hs
    have hrlen : ¬ (rest.length < n) := by omega
    have hLpos : 0 < (z :: zs).length := List.length_pos.mpr (List.cons_ne_nil z zs)
    cases isList with
    | false =>
      have henc : encodeHeader false n ++ rest =
          (0xb7 + (z :: zs).length) :: ((z :: zs) ++ rest) := by
        simp [encodeHeader, if_neg hs, hb]
      rw [henc]
      have hb1 : ¬ (0xb7 + (z :: zs).length < 0x80) := by omega
      have hb2 : ¬ (0xb7 + (z :: zs).length ≤ 0xb7) := by omega
      have hb3 : 0xb7 + (z :: zs).length ≤ 0xbf := by omega
      have hb5 : 0xb7 + (z :: zs).length - 0xb7 = (z :: zs).length := by omega
      simp only [decodeHeader]
      simp only [if_neg hb1, if_neg hb2, if_pos hb3, hb5, decodeLongHeader,
        if_neg h8, if_neg hlen, take_append_length, drop_append_length]
      simp only [if_neg hz, hv, if_neg h56, if_neg hrlen]
    | true =>
      have henc : encodeHeader true n ++ rest =
          (0xf7 + (z :: zs).length) :: ((z :: zs) ++ rest) := by
        simp [encodeHeader, if_neg hs, hb]
      rw [henc]
      have hb1 : ¬ (0xf7 + (z :: zs).length < 0x80) := by omega
      have hb2 : ¬ (0xf7 + (z :: zs).length ≤ 0xb7) := by omega
      have hb3 : ¬ (0xf7 + (z :: zs).length ≤ 0xbf) := by omega
      have hb4 : ¬ (0xf7 + (z :: zs).length ≤ 0xf7) := by omega
      have hb5 : 0xf7 + (z :: zs).length - 0xf7 = (z :: zs).length := by omega
      simp only [decodeHeader]
      simp only [if_neg hb1, if_neg hb2, if_neg hb3, if_neg hb4, hb5,
        decodeLongHeader, if_neg h8, if_neg hlen, take_append_length,
        drop_append_length]
      simp only [if_neg hz, hv, if_neg h56, if_neg hrlen]

theorem decodeBytesH_true_encode (payload rest : List Nat)
    (hn : payload.length < 2 ^ 64) :
    decodeBytesH true (encodeHeader true payload.length ++ payload ++ rest) =
      .ok (payload, rest) := by
  rw [List.append_assoc]
  have h := decodeHeader_encodeHeader true payload.length (payload ++ rest)
    hn (by intro h; exact absurd h (by simp)) (by simp [List.length_append])
  simp only [decodeBytesH, h]
  simp [take_append_length, drop_append_length]

theorem decodeBytesH_false_encodeBytes (bs rest : List Nat)
    (hv : ValidBytes bs) (hn : bs.length < 2 ^ 64) :
    decodeBytesH false (encodeBytes bs ++ rest) = .ok (bs, rest) := by
  by_cases h1 : bs.length = 1 ∧ bs.headI < 0x80
  · rcases bs with _ | ⟨b, bt⟩
    · simp at h1
    · rcases bt with _ | ⟨c, ct⟩
      · have hb : b < 0x80 := by simpa using h1.2
        simp [encodeBytes, h1, decodeHeader, decodeBytesH, hb]
      · simp at h1
  · rw [encodeBytes, if_neg h1]
    by_cases hone : bs.length = 1
    · rcases bs with _ | ⟨b, bt⟩
      · simp at hone
      · rcases bt with _ | ⟨c, ct⟩
        · have hb : ¬ (b < 0x80) := by
            intro hlt
            exact h1 ⟨hone, by simpa using hlt⟩
          have henc : encodeHeader false [b].length ++ ([b] ++ rest) =
              0x81 :: b :: rest := by
            simp [encodeHeader]
          rw [List.append_assoc, henc]
          simp only [decodeBytesH, decodeHeader]
          norm_num
          simp only [if_neg hb]
          simp [List.take, List.drop]
        · simp at hone
    · rw [List.append_assoc]
      have h := decodeHeader_encodeHeader false bs.length (bs ++ rest)
        hn (fun _ => hone) (by simp [List.length_append])
      simp only [decodeBytesH, h]
      simp [take_append_length, drop_append_length]

theorem natToBeBytes_small (n : Nat) (h0 : 0 < n) (h : n < 256) :
    natToBeBytes n = [n] := by
  rw [natToBeBytes_eq_digits, Nat.digits_def' (by norm_num : 1 < 256) h0]
  simp [Nat.mod_eq_of_lt h, Nat.div_eq_of_lt h]

theorem beBytesToNat_singleton (z : Nat) : beBytesToNat [z] = z := by
  simp [beBytesToNat]

theorem natToBeBytes_length_lt_u64 (n : Nat) (hn : n < 2 ^ 256) :
    (natToBeBytes n).length < 2 ^ 64 := by
  have h := natToBeBytes_length_le n 32 (by norm_num at hn ⊢; omega)
  omega

theorem decodeU256_encodeUint (n : Nat) (rest : List Nat) (hn : n < 2 ^ 256) :
    decodeU256 (encodeUint n ++ rest) = .ok (n, rest) := by
  have hv : ValidBytes (natToBeBytes n) := natToBeBytes_valid n
  have hlen : (natToBeBytes n).length < 2 ^ 64 := natToBeBytes_length_lt_u64 n hn
  rw [encodeUint]
  rcases hb : natToBeBytes n with _ | ⟨z, zs⟩
  · have hn0 : n = 0 := (natToBeBytes_eq_nil_iff n).mp hb
    simp only [decodeU256,
      decodeBytesH_false_encodeBytes [] rest (by simp [ValidBytes]) (by simp)]
    simp [beBytesToNat, hn0]
  · rw [hb] at hv hlen
    have hz : z ≠ 0 := natToBeBytes_head_ne_zero n z zs hb
    have hvv : beBytesToNat (z :: zs) = n := by
      rw [← hb, beBytesToNat_natToBeBytes]
    simp only [decodeU256, decodeBytesH_false_encodeBytes _ _ hv hlen]
    cases z with
    | zero => exact absurd rfl hz
    | succ z' =>
      simp [hvv]
      simpa using hn

theorem decodeFixedBytes_encodeBytes (n : Nat) (bs rest : List Nat)
    (hv : ValidBytes bs) (hn : bs.length < 2 ^ 64) (hlen : bs.length = n) :
    decodeFixedBytes n (encodeBytes bs ++ rest) = .ok (bs, rest) := by
  simp only [decodeFixedBytes, decodeBytesH_false_encodeBytes bs rest hv hn,
    if_pos hlen]

/-! ### Length agreement: the `length()` methods used to build headers agree
with the lengths of the encodings actually written. -/

theorem encodeBytes_length (bs : List Nat) :
    (encodeBytes bs).length = rlpLenBytes bs := by
  unfold encodeBytes rlpLenBytes
  split
  · rename_i h; rw [h.1]
  · simp [encodeHeader_length, List.length_append]

theorem encodeUint_length (n : Nat) : (encodeUint n).length = rlpLenUint n := by
  rw [encodeUint, encodeBytes_length]
  by_cases h : n < 0x80
  · rcases Nat.eq_zero_or_pos n with rfl | hp
    · simp [rlpLenBytes, rlpLenUint, natToBeBytes_zero, lengthOfLength]
    · have hb : natToBeBytes n = [n] := natToBeBytes_small n hp (by omega)
      simp [rlpLenBytes, rlpLenUint, hb, h]
  · have hcase : ¬ ((natToBeBytes n).length = 1 ∧ (natToBeBytes n).headI < 0x80) := by
      rintro ⟨hl, hh⟩
      obtain ⟨z, hz⟩ := List.length_eq_one.mp hl
      have : n = z := by
        rw [← beBytesToNat_natToBeBytes n, hz, beBytesToNat_singleton]
      rw [hz] at hh
      simp [List.headI] at hh
      omega
    rw [rlpLenBytes, if_neg hcase, rlpLenUint, if_neg h]
    omega

theorem encodeKeys_length (keys : List (List Nat)) :
    (encodeKeys keys).length = rlpLenKeys keys := by
  rw [encodeKeys, rlpLenKeys, List.length_append, encodeHeader_length]
  congr 1
  rw [List.length_flatten, keysPayloadLen, List.map_map]
  congr 1
  apply List.map_congr_left
  intro k _
  exact encodeBytes_length k

theorem keysPayloadLen_eq_flatten_length (keys : List (List Nat)) :
    (keys.map encodeBytes).flatten.length = keysPayloadLen keys := by
  rw [List.length_flatten, keysPayloadLen, List.map_map]
  congr 1
  apply List.map_congr_left
  intro k _
  exact encodeBytes_length k

theorem AccessListItem.encodeIt_length (it : AccessListItem) :
    it.encodeIt.length = it.rlpLen := by
  rw [AccessListItem.encodeIt, AccessListItem.rlpLen, List.length_append,
    List.length_append, encodeHeader_length, encodeBytes_length,
    encodeKeys_length, AccessListItem.payloadLen]
  omega

theorem accessListPayloadLen_eq_flatten_length (items : List AccessListItem) :
    (items.map AccessListItem.encodeIt).flatten.length = accessListPayloadLen items := by
  rw [List.length_flatten, accessListPayloadLen, List.map_map]
  congr 1
  apply List.map_congr_left
  intro it _
  exact AccessListItem.encodeIt_length it

theorem encodeAccessList_length (items : List AccessListItem) :
    (encodeAccessList items).length = rlpLenAccessList items := by
  rw [encodeAccessList, rlpLenAccessList, List.length_append, encodeHeader_length,
    accessListPayloadLen_eq_flatten_length]

theorem SpanBatchEip1559TransactionData.encodeTx_length
    (r : SpanBatchEip1559TransactionData) :
    r.encodeTx.length = lengthOfLength r.payload_length + r.payload_length := by
  rw [SpanBatchEip1559TransactionData.encodeTx]
  simp only [List.length_append, encodeHeader_length, encodeUint_length,
    encodeBytes_length, encodeAccessList_length,
    SpanBatchEip1559TransactionData.payload_length]
  omega

theorem encodeBytes_ne_nil (bs : List Nat) : encodeBytes bs ≠ [] := by
  unfold encodeBytes
  split
  · rename_i h
    intro hc
    rw [hc] at h
    simp at h
  · simp [encodeHeader_ne_nil]

theorem length_le_rlpLenBytes (bs : List Nat) : bs.length ≤ rlpLenBytes bs := by
  unfold rlpLenBytes
  split
  · rename_i h; omega
  · omega

theorem decodeItems_flatten {α : Type}
    (dec : List Nat → Except RlpError (α × List Nat)) (enc : α → List Nat)
    (xs : List α)
    (henc : ∀ x ∈ xs, ∀ rest, dec (enc x ++ rest) = .ok (x, rest))
    (hne : ∀ x ∈ xs, enc x ≠ []) :
    ∀ fuel, (xs.map enc).flatten.length ≤ fuel →
      decodeItems dec fuel (xs.map enc).flatten = .ok xs := by
  induction xs with
  | nil =>
    intro fuel _
    simp only [List.map_nil, List.flatten_nil]
    cases fuel <;> rfl
  | cons x xs ih =>
    intro fuel hfuel
    have hx := henc x (List.mem_cons_self x xs)
    have hxne := hne x (List.mem_cons_self x xs)
    rw [List.map_cons, List.flatten_cons] at hfuel ⊢
    obtain ⟨b, bt, hbt⟩ : ∃ b bt, enc x = b :: bt := by
      rcases h : enc x with _ | ⟨b, bt⟩
      · exact absurd h hxne
      · exact ⟨b, bt, rfl⟩
    rcases fuel with _ | fuel
    · rw [hbt] at hfuel
      simp at hfuel
    · rw [hbt, List.cons_append]
      simp only [decodeItems]
      rw [← List.cons_append, ← hbt, hx]
      have hrec := ih
        (fun y hy rest => henc y (List.mem_cons_of_mem x hy) rest)
        (fun y hy => hne y (List.mem_cons_of_mem x hy)) fuel
        (by
          rw [hbt] at hfuel
          simp only [List.length_append, List.length_cons] at hfuel ⊢
          omega)
      simp only [hrec]

theorem decodeVec_encode {α : Type}
    (dec : List Nat → Except RlpError (α × List Nat)) (enc : α → List Nat)
    (xs : List α) (rest : List Nat)
    (henc : ∀ x ∈ xs, ∀ r, dec (enc x ++ r) = .ok (x, r))
    (hne : ∀ x ∈ xs, enc x ≠ [])
    (hplen : (xs.map enc).flatten.length < 2 ^ 64) :
    decodeVec dec
      (encodeHeader true (xs.map enc).flatten.length ++ (xs.map enc).flatten ++ rest) =
      .ok (xs, rest) := by
  simp only [decodeVec, decodeBytesH_true_encode (xs.map enc).flatten rest hplen]
  rw [decodeItems_flatten dec enc xs henc hne (xs.map enc).flatten.length le_rfl]

theorem decodeVec_encodeKeys (keys : List (List Nat)) (rest : List Nat)
    (hwf : ∀ k ∈ keys, k.length = 32 ∧ ValidBytes k)
    (hplen : keysPayloadLen keys < 2 ^ 64) :
    decodeVec (decodeFixedBytes 32) (encodeKeys keys ++ rest) = .ok (keys, rest) := by
  have hpl : keysPayloadLen keys = (keys.map encodeBytes).flatten.length :=
    (keysPayloadLen_eq_flatten_length keys).symm
  rw [encodeKeys, hpl]
  exact decodeVec_encode (decodeFixedBytes 32) encodeBytes keys rest
    (fun k hk r => decodeFixedBytes_encodeBytes 32 k r (hwf k hk).2
      (by rw [(hwf k hk).1]; norm_num) (hwf k hk).1)
    (fun k _ => encodeBytes_ne_nil k)
    (by rw [← hpl]; exact hplen)

theorem AccessListItem.decodeIt_encodeIt (it : AccessListItem) (rest : List Nat)
    (hwf : it.Wf) (hplen : it.payloadLen < 2 ^ 64) :
    AccessListItem.decodeIt (it.encodeIt ++ rest) = .ok (it, rest) := by
  obtain ⟨haddr, hvaddr, hkeys⟩ := hwf
  have hlenB : (encodeBytes it.address).length = rlpLenBytes it.address :=
    encodeBytes_length _
  have hlenK : (encodeKeys it.storage_keys).length = rlpLenKeys it.storage_keys :=
    encodeKeys_length _
  have hassoc : it.encodeIt ++ rest =
      encodeHeader true it.payloadLen ++
        (encodeBytes it.address ++ (encodeKeys it.storage_keys ++ rest)) := by
    rw [AccessListItem.encodeIt]
    simp [List.append_assoc]
  rw [hassoc]
  have hr : it.payloadLen ≤
      (encodeBytes it.address ++ (encodeKeys it.storage_keys ++ rest)).length := by
    simp only [List.length_append, hlenB, hlenK, AccessListItem.payloadLen]
    omega
  have hhdr := decodeHeader_encodeHeader true it.payloadLen
    (encodeBytes it.address ++ (encodeKeys it.storage_keys ++ rest)) hplen
    (by intro h; exact absurd h (by simp)) hr
  simp only [AccessListItem.decodeIt, hhdr, if_pos]
  have haddrdec := decodeFixedBytes_encodeBytes 20 it.address
    (encodeKeys it.storage_keys ++ rest) hvaddr (by rw [haddr]; norm_num) haddr
  simp only [haddrdec]
  have hkplen : keysPayloadLen it.storage_keys < 2 ^ 64 := by
    have : keysPayloadLen it.storage_keys ≤ it.payloadLen := by
      rw [AccessListItem.payloadLen, rlpLenKeys]
      omega
    omega
  simp only [decodeVec_encodeKeys it.storage_keys rest hkeys hkplen]
  have hcheck : (encodeBytes it.address ++ (encodeKeys it.storage_keys ++ rest)).length
      - rest.length = it.payloadLen := by
    simp only [List.length_append, hlenB, hlenK, AccessListItem.payloadLen]
    omega
  simp only [if_pos hcheck]

theorem AccessListItem.encodeIt_ne_nil (it : AccessListItem) :
    it.encodeIt ≠ [] := by
  rw [AccessListItem.encodeIt]
  simp [encodeHeader_ne_nil]

theorem decodeAccessList_encode (items : List AccessListItem) (rest : List Nat)
    (hwf : ∀ it ∈ items, it.Wf)
    (hplen : accessListPayloadLen items < 2 ^ 64) :
    decodeAccessList (encodeAccessList items ++ rest) = .ok (items, rest) := by
  have hpl : accessListPayloadLen items =
      (items.map AccessListItem.encodeIt).flatten.length :=
    (accessListPayloadLen_eq_flatten_length items).symm
  rw [decodeAccessList, encodeAccessList, hpl]
  exact decodeVec_encode AccessListItem.decodeIt AccessListItem.encodeIt items rest
    (fun it hit r => AccessListItem.decodeIt_encodeIt it r (hwf it hit)
      (by
        have h1 : it.payloadLen ≤ it.rlpLen := by
          rw [AccessListItem.rlpLen]; omega
        have h2 : it.rlpLen ≤ accessListPayloadLen items :=
          List.le_sum_of_mem (List.mem_map_of_mem AccessListItem.rlpLen hit)
        omega))
    (fun it _ => AccessListItem.encodeIt_ne_nil it)
    (by rw [← hpl]; exact hplen)

theorem SpanBatchEip1559TransactionData.decodeTx_encodeTx
    (r : SpanBatchEip1559TransactionData) (rest : List Nat) (hwf : r.Wf) :
    SpanBatchEip1559TransactionData.decodeTx (r.encodeTx ++ rest) = .ok (r, rest) := by
  obtain ⟨hval, hmf, hmp, hdata, hal, hplen⟩ := hwf
  have hassoc : r.encodeTx ++ rest =
      encodeHeader true r.payload_length ++
        (encodeUint r.value ++ (encodeUint r.max_fee_per_gas ++
          (encodeUint r.max_priority_fee_per_gas ++ (encodeBytes r.data ++
            (encodeAccessList r.access_list ++ rest))))) := by
    rw [SpanBatchEip1559TransactionData.encodeTx]
    simp [List.append_assoc]
  rw [hassoc]
  have hinner : (encodeUint r.value ++ (encodeUint r.max_fee_per_gas ++
      (encodeUint r.max_priority_fee_per_gas ++ (encodeBytes r.data ++
        (encodeAccessList r.access_list ++ rest))))).length =
      r.payload_length + rest.length := by
    simp only [List.length_append, encodeUint_length, encodeBytes_length,
      encodeAccessList_length, SpanBatchEip1559TransactionData.payload_length]
    omega
  have hdlen : r.data.length < 2 ^ 64 := by
    have h1 := length_le_rlpLenBytes r.data
    have h2 : rlpLenBytes r.data ≤ r.payload_length := by
      rw [SpanBatchEip1559TransactionData.payload_length]
      omega
    omega
  have halplen : accessListPayloadLen r.access_list < 2 ^ 64 := by
    have h2 : accessListPayloadLen r.access_list ≤ r.payload_length := by
      rw [SpanBatchEip1559TransactionData.payload_length, rlpLenAccessList]
      omega
    omega
  have hhdr := decodeHeader_encodeHeader true r.payload_length
    (encodeUint r.value ++ (encodeUint r.max_fee_per_gas ++
      (encodeUint r.max_priority_fee_per_gas ++ (encodeBytes r.data ++
        (encodeAccessList r.access_list ++ rest))))) hplen
    (by intro h; exact absurd h (by simp)) (by rw [hinner]; omega)
  simp only [SpanBatchEip1559TransactionData.decodeTx, hhdr, if_pos]
  simp only [decodeU256_encodeUint r.value _ hval]
  simp only [decodeU256_encodeUint r.max_fee_per_gas _ hmf]
  simp only [decodeU256_encodeUint r.max_priority_fee_per_gas _ hmp]
  simp only [decodeBytesRlp, decodeBytesH_false_encodeBytes r.data _ hdata hdlen]
  simp only [decodeAccessList_encode r.access_list rest hal halplen]
  have hfin : rest.length =
      (encodeUint r.value ++ (encodeUint r.max_fee_per_gas ++
        (encodeUint r.max_priority_fee_per_gas ++ (encodeBytes r.data ++
          (encodeAccessList r.access_list ++ rest))))).length -
        r.payload_length := by
    rw [hinner]
    omega
  simp only [if_pos hfin.symm, hinner]
  rw [if_pos (by omega)]

/-! ### Inverse direction: a successful decode determines the input bytes.

These lemmas show that `alloy_rlp` decoding is canonical: whenever a decoder
succeeds on a valid byte buffer, the consumed prefix is exactly the encoding
of the decoded value. -/

theorem ValidBytes.append_left {a b : List Nat} (h : ValidBytes (a ++ b)) :
    ValidBytes a := fun x hx => h x (List.mem_append_left b hx)

theorem ValidBytes.append_right {a b : List Nat} (h : ValidBytes (a ++ b)) :
    ValidBytes b := fun x hx => h x (List.mem_append_right a hx)

theorem ValidBytes.of_cons {a : Nat} {b : List Nat} (h : ValidBytes (a :: b)) :
    ValidBytes b := fun x hx => h x (List.mem_cons_of_mem a hx)

theorem ValidBytes.drop {b : List Nat} (h : ValidBytes b) (n : Nat) :
    ValidBytes (b.drop n) := fun x hx => h x (List.mem_of_mem_drop hx)

theorem ValidBytes.take {b : List Nat} (h : ValidBytes b) (n : Nat) :
    ValidBytes (b.take n) := fun x hx => h x (List.mem_of_mem_take hx)

theorem decodeLongHeader_inv (isList : Bool) (lenOfLen : Nat) (bt : List Nat)
    (h : RlpHeader) (rest : List Nat)
    (hdec : decodeLongHeader isList lenOfLen bt = .ok (h, rest))
    (hv : ValidBytes bt) (hlol : 0 < lenOfLen) :
    h.list = isList ∧ 56 ≤ h.payload_length ∧ h.payload_length < 2 ^ 64 ∧
      h.payload_length ≤ rest.length ∧ ValidBytes rest ∧
      bt = natToBeBytes h.payload_length ++ rest ∧
      (natToBeBytes h.payload_length).length = lenOfLen := by
  rw [decodeLongHeader] at hdec
  by_cases h8 : 8 < lenOfLen
  · rw [if_pos h8] at hdec
    exact absurd hdec (by simp)
  rw [if_neg h8] at hdec
  by_cases hbl : bt.length < lenOfLen
  · rw [if_pos hbl] at hdec
    exact absurd hdec (by simp)
  rw [if_neg hbl] at hdec
  split at hdec
  · exact absurd hdec (by simp)
  rename_i z zs htake
  by_cases hz : z = 0
  · rw [if_pos hz] at hdec
    exact absurd hdec (by simp)
  rw [if_neg hz] at hdec
  simp only at hdec
  by_cases h56 : beBytesToNat (z :: zs) < 56
  · rw [if_pos h56] at hdec
    exact absurd hdec (by simp)
  rw [if_neg h56] at hdec
  by_cases hdl : (bt.drop lenOfLen).length < beBytesToNat (z :: zs)
  · rw [if_pos hdl] at hdec
    exact absurd hdec (by simp)
  rw [if_neg hdl] at hdec
  simp only [Except.ok.injEq, Prod.mk.injEq] at hdec
  obtain ⟨hh, hr⟩ := hdec
  subst hh
  subst hr
  dsimp only
  have hsplit : bt = (z :: zs) ++ bt.drop lenOfLen := by
    rw [← htake, List.take_append_drop]
  have hvz : ValidBytes (z :: zs) := by
    rw [← htake]; exact hv.take lenOfLen
  have hlen : (z :: zs).length = lenOfLen := by
    rw [← htake, List.length_take]
    omega
  have hcanon : natToBeBytes (beBytesToNat (z :: zs)) = z :: zs :=
    natToBeBytes_beBytesToNat (z :: zs) hvz
      (fun c ct hc => by
        injection hc with hc1 _
        exact hc1 ▸ hz)
  refine ⟨rfl, by omega, ?_, by omega, hv.drop lenOfLen, ?_, ?_⟩
  · have := beBytesToNat_lt (z :: zs) hvz
    rw [hlen] at this
    calc beBytesToNat (z :: zs) < 256 ^ lenOfLen := this
      _ ≤ 256 ^ 8 := Nat.pow_le_pow_right (by norm_num) (by omega)
      _ = 2 ^ 64 := by norm_num
  · rw [hcanon]
    exact hsplit
  · rw [hcanon]
    exact hlen

theorem decodeHeader_inv (buf : List Nat) (h : RlpHeader) (rest : List Nat)
    (hdec : decodeHeader buf = .ok (h, rest)) (hv : ValidBytes buf) :
    h.payload_length ≤ rest.length ∧ h.payload_length < 2 ^ 64 ∧
      ValidBytes rest ∧
      ((h.list = false ∧ h.payload_length = 1 ∧ rest = buf ∧
          ∃ c ct, buf = c :: ct ∧ c < 0x80) ∨
        (buf = encodeHeader h.list h.payload_length ++ rest ∧
          (h.list = false → h.payload_length = 1 →
            ∃ c ct, rest = c :: ct ∧ 0x80 ≤ c))) := by
  rcases buf with _ | ⟨b, bt⟩
  · exact absurd hdec (by simp [decodeHeader])
  have hb : b < 256 := hv b (List.mem_cons_self b bt)
  have hvt : ValidBytes bt := hv.of_cons
  simp only [decodeHeader] at hdec
  by_cases h1 : b < 0x80
  · rw [if_pos h1] at hdec
    simp only [Except.ok.injEq, Prod.mk.injEq] at hdec
    obtain ⟨hh, hr⟩ := hdec
    subst hh
    subst hr
    exact ⟨by simp, by norm_num, hv,
      Or.inl ⟨rfl, rfl, rfl, b, bt, rfl, h1⟩⟩
  rw [if_neg h1] at hdec
  by_cases h2 : b ≤ 0xb7
  · rw [if_pos h2] at hdec
    by_cases h3 : b - 0x80 = 1
    · rw [if_pos h3] at hdec
      split at hdec
      · exact absurd hdec (by simp)
      rename_i c ct
      by_cases h4 : c < 0x80
      · rw [if_pos h4] at hdec
        exact absurd hdec (by simp)
      rw [if_neg h4] at hdec
      simp only [Except.ok.injEq, Prod.mk.injEq] at hdec
      obtain ⟨hh, hr⟩ := hdec
      subst hh
      subst hr
      have hb81 : b = 0x81 := by omega
      refine ⟨by simp, by norm_num, hvt, Or.inr ⟨?_, ?_⟩⟩
      · have : encodeHeader false 1 = [0x81] := by
          simp [encodeHeader, lengthOfLength]
        rw [this, hb81]
        rfl
      · intro _ _
        exact ⟨c, ct, rfl, by omega⟩
    · rw [if_neg h3] at hdec
      by_cases h5 : bt.length < b - 0x80
      · rw [if_pos h5] at hdec
        exact absurd hdec (by simp)
      rw [if_neg h5] at hdec
      simp only [Except.ok.injEq, Prod.mk.injEq] at hdec
      obtain ⟨hh, hr⟩ := hdec
      subst hh
      subst hr
      refine ⟨by simpa using by omega, by simp; omega, hvt, Or.inr ⟨?_, ?_⟩⟩
      · have hlt : b - 0x80 < 56 := by omega
        have : encodeHeader false (b - 0x80) = [0x80 + (b - 0x80)] := by
          simp [encodeHeader, if_pos hlt]
        rw [this]
        have : 0x80 + (b - 0x80) = b := by omega
        rw [this]
        rfl
      · intro _ hp1
        exact absurd (by simpa using hp1) h3
  rw [if_neg h2] at hdec
  by_cases h6 : b ≤ 0xbf
  · rw [if_pos h6] at hdec
    obtain ⟨hlist, h56, hu64, hle, hvr, hsplit, hlol⟩ :=
      decodeLongHeader_inv false (b - 0xb7) bt h rest hdec hvt (by omega)
    refine ⟨hle, hu64, hvr, Or.inr ⟨?_, ?_⟩⟩
    · have : encodeHeader h.list h.payload_length =
          (0xb7 + (natToBeBytes h.payload_length).length) ::
            natToBeBytes h.payload_length := by
        rw [hlist]
        simp [encodeHeader, if_neg (by omega : ¬ h.payload_length < 56)]
      rw [this, hlol]
      have : 0xb7 + (b - 0xb7) = b := by omega
      rw [this, List.cons_append, ← hsplit]
    · intro _ hp1
      omega
  rw [if_neg h6] at hdec
  by_cases h7 : b ≤ 0xf7
  · rw [if_pos h7] at hdec
    by_cases h5 : bt.length < b - 0xc0
    · rw [if_pos h5] at hdec
      exact absurd hdec (by simp)
    rw [if_neg h5] at hdec
    simp only [Except.ok.injEq, Prod.mk.injEq] at hdec
    obtain ⟨hh, hr⟩ := hdec
    subst hh
    subst hr
    refine ⟨by simpa using by omega, by simp; omega, hvt, Or.inr ⟨?_, ?_⟩⟩
    · have hlt : b - 0xc0 < 56 := by omega
      have : encodeHeader true (b - 0xc0) = [0xc0 + (b - 0xc0)] := by
        simp [encodeHeader, if_pos hlt]
      rw [this]
      have : 0xc0 + (b - 0xc0) = b := by omega
      rw [this]
      rfl
    · intro hfalse _
      exact absurd hfalse (by simp)
  · rw [if_neg h7] at hdec
    obtain ⟨hlist, h56, hu64, hle, hvr, hsplit, hlol⟩ :=
      decodeLongHeader_inv true (b - 0xf7) bt h rest hdec hvt (by omega)
    refine ⟨hle, hu64, hvr, Or.inr ⟨?_, ?_⟩⟩
    · have : encodeHeader h.list h.payload_length =
          (0xf7 + (natToBeBytes h.payload_length).length) ::
            natToBeBytes h.payload_length := by
        rw [hlist]
        simp [encodeHeader, if_neg (by omega : ¬ h.payload_length < 56)]
      rw [this, hlol]
      have : 0xf7 + (b - 0xf7) = b := by omega
      rw [this, List.cons_append, ← hsplit]
    · intro hfalse _
      rw [hlist] at hfalse
      exact absurd hfalse (by simp)

theorem decodeBytesH_false_inv (buf bs rest : List Nat)
    (hdec : decodeBytesH false buf = .ok (bs, rest)) (hv : ValidBytes buf) :
    buf = encodeBytes bs ++ rest ∧ ValidBytes bs ∧ ValidBytes rest ∧
      bs.length < 2 ^ 64 := by
  rw [decodeBytesH] at hdec
  split at hdec
  · exact absurd hdec (by simp)
  rename_i h rest0 hh
  by_cases hl : h.list = false
  · obtain ⟨hle, hu64, hvr0, hdisj⟩ := decodeHeader_inv buf h rest0 hh hv
    rw [if_pos hl] at hdec
    simp only [Except.ok.injEq, Prod.mk.injEq] at hdec
    obtain ⟨hbs, hrest⟩ := hdec
    rcases hdisj with ⟨hlf, hp1, hr0, c, ct, hbufc, hc⟩ | ⟨hbuf, hone⟩
    · subst hr0
      rw [hbufc, hp1] at hbs hrest
      simp only [List.take_succ_cons, List.take_zero, List.drop_succ_cons,
        List.drop_zero] at hbs hrest
      rw [hbufc] at hv
      have henc : encodeBytes [c] = [c] := by
        rw [encodeBytes, if_pos ⟨rfl, by simpa using hc⟩]
      refine ⟨?_, ?_, ?_, ?_⟩
      · rw [hbufc, ← hbs, ← hrest, henc]
        rfl
      · rw [← hbs]
        intro x hx
        have hxc : x = c := List.mem_singleton.mp hx
        rw [hxc]
        exact hv c (List.mem_cons_self _ _)
      · rw [← hrest]
        exact hv.of_cons
      · rw [← hbs]
        norm_num
    · have hr0split : rest0 = bs ++ rest := by
        rw [← hbs, ← hrest, List.take_append_drop]
      have hbslen : bs.length = h.payload_length := by
        rw [← hbs, List.length_take]
        omega
      have hvbs : ValidBytes bs := by
        rw [← hbs]; exact hvr0.take _
      have hvrest : ValidBytes rest := by
        rw [← hrest]; exact hvr0.drop _
      by_cases hp1 : h.payload_length = 1
      · obtain ⟨c, ct, hr0c, hc⟩ := hone hl hp1
        have hbsc : bs = [c] := by
          rw [← hbs, hr0c, hp1]
          simp
        have hrestc : rest = ct := by
          rw [← hrest, hr0c, hp1]
          simp
        have henc : encodeBytes bs = 0x81 :: bs := by
          rw [hbsc, encodeBytes, if_neg (by simp; omega)]
          simp [encodeHeader]
        refine ⟨?_, hvbs, hvrest, by rw [hbslen, hp1]; norm_num⟩
        rw [hbuf, hl, hp1, henc, hr0split]
        have h81 : encodeHeader false 1 = [0x81] := by simp [encodeHeader]
        rw [h81]
        simp
      · have henc : encodeBytes bs = encodeHeader false h.payload_length ++ bs := by
          rw [encodeBytes, if_neg (fun hcon => hp1 (hbslen ▸ hcon.1)), hbslen]
        refine ⟨?_, hvbs, hvrest, by omega⟩
        rw [hbuf, hl, henc, hr0split, List.append_assoc]
  · rw [if_neg hl] at hdec
    exact absurd hdec (by simp)

theorem decodeU256_inv (buf : List Nat) (v : Nat) (rest : List Nat)
    (hdec : decodeU256 buf = .ok (v, rest)) (hv : ValidBytes buf) :
    buf = encodeUint v ++ rest ∧ v < 2 ^ 256 ∧ ValidBytes rest := by
  rw [decodeU256] at hdec
  split at hdec
  · exact absurd hdec (by simp)
  rename_i bytes rest1 hh
  obtain ⟨hbuf, hvb, hvr, hlen⟩ := decodeBytesH_false_inv buf bytes rest1 hh hv
  split at hdec
  · exact absurd hdec (by simp)
  rename_i hno0
  by_cases hfit : beBytesToNat bytes < 2 ^ 256
  · rw [if_pos hfit] at hdec
    simp only [Except.ok.injEq, Prod.mk.injEq] at hdec
    obtain ⟨hveq, hrest⟩ := hdec
    refine ⟨?_, hveq ▸ hfit, hrest ▸ hvr⟩
    have hcanon : natToBeBytes (beBytesToNat bytes) = bytes := by
      rcases bytes with _ | ⟨z, zs⟩
      · simp [beBytesToNat, natToBeBytes_zero]
      · refine natToBeBytes_beBytesToNat (z :: zs) hvb ?_
        intro c ct hc hc0
        injection hc with hc1 hc2
        subst hc1
        subst hc2
        exact hno0 zs (by rw [hc0])
    rw [encodeUint, ← hveq, hcanon, ← hrest]
    exact hbuf
  · rw [if_neg hfit] at hdec
    exact absurd hdec (by simp)

theorem decodeFixedBytes_inv (n : Nat) (buf bs rest : List Nat)
    (hdec : decodeFixedBytes n buf = .ok (bs, rest)) (hv : ValidBytes buf) :
    buf = encodeBytes bs ++ rest ∧ bs.length = n ∧ ValidBytes bs ∧
      ValidBytes rest := by
  rw [decodeFixedBytes] at hdec
  split at hdec
  · exact absurd hdec (by simp)
  rename_i bytes rest1 hh
  by_cases hn : bytes.length = n
  · rw [if_pos hn] at hdec
    simp only [Except.ok.injEq, Prod.mk.injEq] at hdec
    obtain ⟨hbs, hrest⟩ := hdec
    obtain ⟨hbuf, hvb, hvr, _⟩ := decodeBytesH_false_inv buf bytes rest1 hh hv
    exact ⟨by rw [← hbs, ← hrest]; exact hbuf, by rw [← hbs]; exact hn,
      hbs ▸ hvb, hrest ▸ hvr⟩
  · rw [if_neg hn] at hdec
    exact absurd hdec (by simp)

theorem decodeBytesH_true_inv (buf payload rest : List Nat)
    (hdec : decodeBytesH true buf = .ok (payload, rest)) (hv : ValidBytes buf) :
    buf = encodeHeader true payload.length ++ (payload ++ rest) ∧
      ValidBytes payload ∧ ValidBytes rest ∧ payload.length < 2 ^ 64 := by
  rw [decodeBytesH] at hdec
  split at hdec
  · exact absurd hdec (by simp)
  rename_i h rest0 hh
  by_cases hl : h.list = true
  · obtain ⟨hle, hu64, hvr0, hdisj⟩ := decodeHeader_inv buf h rest0 hh hv
    rw [if_pos hl] at hdec
    simp only [Except.ok.injEq, Prod.mk.injEq] at hdec
    obtain ⟨hp, hrest⟩ := hdec
    rcases hdisj with ⟨hlf, _, _, _⟩ | ⟨hbuf, _⟩
    · rw [hl] at hlf
      exact absurd hlf (by simp)
    · have hplen : payload.length = h.payload_length := by
        rw [← hp, List.length_take]
        omega
      have hsplit : rest0 = payload ++ rest := by
        rw [← hp, ← hrest, List.take_append_drop]
      refine ⟨?_, by rw [← hp]; exact hvr0.take _,
        by rw [← hrest]; exact hvr0.drop _, by omega⟩
      rw [hbuf, hl, hplen, hsplit]
  · rw [if_neg hl] at hdec
    exact absurd hdec (by simp)

theorem decodeItems_inv {α : Type}
    (dec : List Nat → Except RlpError (α × List Nat)) (enc : α → List Nat)
    (P : α → Prop)
    (hitem : ∀ buf x r, dec buf = .ok (x, r) → ValidBytes buf →
      buf = enc x ++ r ∧ P x ∧ ValidBytes r) :
    ∀ fuel payload xs, decodeItems dec fuel payload = .ok xs →
      ValidBytes payload →
      payload = (xs.map enc).flatten ∧ ∀ x ∈ xs, P x := by
  intro fuel
  induction fuel with
  | zero =>
    intro payload xs hdec hvp
    rcases payload with _ | ⟨b, bt⟩
    · simp only [decodeItems, Except.ok.injEq] at hdec
      subst hdec
      exact ⟨by simp, by simp⟩
    · exact absurd hdec (by simp [decodeItems])
  | succ fuel ih =>
    intro payload xs hdec hvp
    rcases payload with _ | ⟨b, bt⟩
    · simp only [decodeItems, Except.ok.injEq] at hdec
      subst hdec
      exact ⟨by simp, by simp⟩
    · simp only [decodeItems] at hdec
      split at hdec
      · exact absurd hdec (by simp)
      rename_i x rem hx
      split at hdec
      · exact absurd hdec (by simp)
      rename_i xs1 hxs1
      simp only [Except.ok.injEq] at hdec
      obtain ⟨hsplit, hPx, hvrem⟩ := hitem (b :: bt) x rem hx hvp
      obtain ⟨hrem, hPs⟩ := ih rem xs1 hxs1 hvrem
      subst hdec
      constructor
      · rw [List.map_cons, List.flatten_cons, ← hrem]
        exact hsplit
      · intro y hy
        rcases List.mem_cons.mp hy with rfl | hy'
        · exact hPx
        · exact hPs y hy'

theorem decodeVec_inv {α : Type}
    (dec : List Nat → Except RlpError (α × List Nat)) (enc : α → List Nat)
    (P : α → Prop)
    (hitem : ∀ buf x r, dec buf = .ok (x, r) → ValidBytes buf →
      buf = enc x ++ r ∧ P x ∧ ValidBytes r)
    (buf : List Nat) (xs : List α) (rest : List Nat)
    (hdec : decodeVec dec buf = .ok (xs, rest)) (hv : ValidBytes buf) :
    buf = encodeHeader true (xs.map enc).flatten.length ++
      ((xs.map enc).flatten ++ rest) ∧ (∀ x ∈ xs, P x) ∧ ValidBytes rest ∧
      (xs.map enc).flatten.length < 2 ^ 64 := by
  rw [decodeVec] at hdec
  split at hdec
  · exact absurd hdec (by simp)
  rename_i payload rest1 hh
  split at hdec
  · exact absurd hdec (by simp)
  rename_i xs1 hitems
  simp only [Except.ok.injEq, Prod.mk.injEq] at hdec
  obtain ⟨hxs, hrest⟩ := hdec
  obtain ⟨hbuf, hvp, hvr1, hplen⟩ := decodeBytesH_true_inv buf payload rest1 hh hv
  obtain ⟨hpayload, hP⟩ :=
    decodeItems_inv dec enc P hitem payload.length payload xs1 hitems hvp
  refine ⟨?_, ?_, hrest ▸ hvr1, ?_⟩
  · rw [← hxs, ← hrest, ← hpayload]
    exact hbuf
  · rw [← hxs]
    exact hP
  · rw [← hxs, ← hpayload]
    exact hplen

theorem AccessListItem.decodeIt_inv (buf : List Nat) (it : AccessListItem)
    (rest : List Nat) (hdec : AccessListItem.decodeIt buf = .ok (it, rest))
    (hv : ValidBytes buf) :
    buf = it.encodeIt ++ rest ∧ it.Wf ∧ ValidBytes rest := by
  rw [AccessListItem.decodeIt] at hdec
  split at hdec
  · exact absurd hdec (by simp)
  rename_i h rest0 hh
  by_cases hl : h.list = true
  · rw [if_pos hl] at hdec
    obtain ⟨hle, hu64, hvr0, hdisj⟩ := decodeHeader_inv buf h rest0 hh hv
    rcases hdisj with ⟨hlf, _, _, _⟩ | ⟨hbuf, _⟩
    · rw [hl] at hlf
      exact absurd hlf (by simp)
    split at hdec
    · exact absurd hdec (by simp)
    rename_i address rest1 haddr
    split at hdec
    · exact absurd hdec (by simp)
    rename_i storage_keys rest2 hkeys
    obtain ⟨hr0, haddrlen, hvaddr, hvr1⟩ :=
      decodeFixedBytes_inv 20 rest0 address rest1 haddr hvr0
    obtain ⟨hr1, hkP, hvr2, hklen⟩ :=
      decodeVec_inv (decodeFixedBytes 32) encodeBytes
        (fun k => k.length = 32 ∧ ValidBytes k)
        (fun b k r hd hvb => by
          obtain ⟨h1, h2, h3, h4⟩ := decodeFixedBytes_inv 32 b k r hd hvb
          exact ⟨h1, ⟨h2, h3⟩, h4⟩)
        rest1 storage_keys rest2 hkeys hvr1
    have hkeysenc : rest1 = encodeKeys storage_keys ++ rest2 := by
      rw [hr1, encodeKeys, keysPayloadLen_eq_flatten_length, List.append_assoc]
    have hconsumed : rest0.length - rest2.length =
        rlpLenBytes address + rlpLenKeys storage_keys := by
      rw [hr0, hkeysenc]
      simp only [List.length_append, encodeBytes_length, encodeKeys_length]
      omega
    by_cases hcheck : rest0.length - rest2.length = h.payload_length
    · rw [if_pos hcheck] at hdec
      simp only [Except.ok.injEq, Prod.mk.injEq] at hdec
      obtain ⟨hit, hrest⟩ := hdec
      have hpl : h.payload_length = it.payloadLen := by
        rw [← hcheck, hconsumed, AccessListItem.payloadLen, ← hit]
      refine ⟨?_, ?_, hrest ▸ hvr2⟩
      · rw [hbuf, hl, hpl, AccessListItem.encodeIt, ← hit]
        simp only [List.append_assoc]
        rw [hr0, hkeysenc, ← hrest]
      · rw [← hit]
        exact ⟨haddrlen, hvaddr, hkP⟩
    · rw [if_neg hcheck] at hdec
      exact absurd hdec (by simp)
  · rw [if_neg hl] at hdec
    exact absurd hdec (by simp)

theorem decodeAccessList_inv (buf : List Nat) (items : List AccessListItem)
    (rest : List Nat) (hdec : decodeAccessList buf = .ok (items, rest))
    (hv : ValidBytes buf) :
    buf = encodeAccessList items ++ rest ∧ (∀ it ∈ items, it.Wf) ∧
      ValidBytes rest ∧ accessListPayloadLen items < 2 ^ 64 := by
  obtain ⟨hbuf, hP, hvr, hlen⟩ :=
    decodeVec_inv AccessListItem.decodeIt AccessListItem.encodeIt
      AccessListItem.Wf
      (fun b it r hd hvb => AccessListItem.decodeIt_inv b it r hd hvb)
      buf items rest hdec hv
  refine ⟨?_, hP, hvr, ?_⟩
  · rw [hbuf, encodeAccessList, accessListPayloadLen_eq_flatten_length,
      List.append_assoc]
  · rw [accessListPayloadLen_eq_flatten_length] at hlen
    exact hlen

theorem SpanBatchEip1559TransactionData.decodeTx_inv (buf : List Nat)
    (r : SpanBatchEip1559TransactionData) (rest : List Nat)
    (hdec : SpanBatchEip1559TransactionData.decodeTx buf = .ok (r, rest))
    (hv : ValidBytes buf) :
    buf = r.encodeTx ++ rest ∧ r.Wf := by
  rw [SpanBatchEip1559TransactionData.decodeTx] at hdec
  split at hdec
  · exact absurd hdec (by simp)
  rename_i h buf0 hh
  by_cases hl : h.list = true
  · rw [if_pos hl] at hdec
    obtain ⟨hle, hu64, hvb0, hdisj⟩ := decodeHeader_inv buf h buf0 hh hv
    rcases hdisj with ⟨hlf, _, _, _⟩ | ⟨hbuf, _⟩
    · rw [hl] at hlf
      exact absurd hlf (by simp)
    split at hdec
    · exact absurd hdec (by simp)
    rename_i value buf1 hval
    split at hdec
    · exact absurd hdec (by simp)
    rename_i max_fee buf2 hmf
    split at hdec
    · exact absurd hdec (by simp)
    rename_i max_prio buf3 hmp
    split at hdec
    · exact absurd hdec (by simp)
    rename_i dataF buf4 hdata
    split at hdec
    · exact absurd hdec (by simp)
    rename_i access_listF buf5 hal
    obtain ⟨h1, hv1, hvb1⟩ := decodeU256_inv buf0 value buf1 hval hvb0
    obtain ⟨h2, hv2, hvb2⟩ := decodeU256_inv buf1 max_fee buf2 hmf hvb1
    obtain ⟨h3, hv3, hvb3⟩ := decodeU256_inv buf2 max_prio buf3 hmp hvb2
    rw [decodeBytesRlp] at hdata
    obtain ⟨h4, hvdata, hvb4, _⟩ :=
      decodeBytesH_false_inv buf3 dataF buf4 hdata hvb3
    obtain ⟨h5, hWfs, hvb5, hallen⟩ :=
      decodeAccessList_inv buf4 access_listF buf5 hal hvb4
    have hsplit : buf0 = encodeUint value ++ (encodeUint max_fee ++
        (encodeUint max_prio ++ (encodeBytes dataF ++
          (encodeAccessList access_listF ++ buf5)))) := by
      rw [h1, h2, h3, h4, h5]
    have hlen0 : buf0.length = rlpLenUint value + rlpLenUint max_fee +
        rlpLenUint max_prio + rlpLenBytes dataF +
        rlpLenAccessList access_listF + buf5.length := by
      rw [hsplit]
      simp only [List.length_append, encodeUint_length, encodeBytes_length,
        encodeAccessList_length]
      omega
    dsimp only at hdec
    split at hdec
    · rename_i hcheck
      simp only [Except.ok.injEq, Prod.mk.injEq] at hdec
      obtain ⟨hr, hrest⟩ := hdec
      have hpl : h.payload_length = rlpLenUint value + rlpLenUint max_fee +
          rlpLenUint max_prio + rlpLenBytes dataF +
          rlpLenAccessList access_listF := by
        omega
      have hplr : SpanBatchEip1559TransactionData.payload_length
          ⟨value, max_fee, max_prio, dataF, access_listF⟩ = h.payload_length := by
        rw [SpanBatchEip1559TransactionData.payload_length, hpl]
      constructor
      · rw [hbuf, hl, ← hr, SpanBatchEip1559TransactionData.encodeTx]
        dsimp only
        rw [hplr]
        simp only [List.append_assoc]
        rw [hsplit, ← hrest]
      · rw [← hr, SpanBatchEip1559TransactionData.Wf]
        dsimp only
        refine ⟨hv1, hv2, hv3, hvdata, hWfs, ?_⟩
        rw [hplr]
        exact hu64
    · exact absurd hdec (by simp)
  · rw [if_neg hl] at hdec
    exact absurd hdec (by simp)

/-! ### Evaluating `to_enveloped_tx` -/

theorem beBytes32_length (n : Nat) (hn : n < 2 ^ 256) :
    (beBytes32 n).length = 32 := by
  rw [beBytes32, List.length_append, List.length_replicate]
  have h := natToBeBytes_length_le n 32 (by norm_num at hn ⊢; omega)
  omega

theorem beBytes32_valid (n : Nat) : ValidBytes (beBytes32 n) := by
  rw [beBytes32]
  intro b hb
  rcases List.mem_append.mp hb with h | h
  · rw [List.eq_of_mem_replicate h]
    norm_num
  · exact natToBeBytes_valid n b h

theorem beBytesToNat_beBytes32 (n : Nat) :
    beBytesToNat (beBytes32 n) = n := by
  rw [beBytes32, beBytesToNat_replicate_zero_append, beBytesToNat_natToBeBytes]

theorem beBytesToNat_drop16_beBytes32 (n : Nat) (hn : n < 2 ^ 256) :
    beBytesToNat ((beBytes32 n).drop 16) = n % 2 ^ 128 := by
  have hlen : (beBytes32 n).length = 32 := beBytes32_length n hn
  have hlolen : ((beBytes32 n).drop 16).length = 16 := by
    rw [List.length_drop, hlen]
  have hvalid : ValidBytes (beBytes32 n) := beBytes32_valid n
  have hlo_lt : beBytesToNat ((beBytes32 n).drop 16) < 2 ^ 128 := by
    have h := beBytesToNat_lt _ (hvalid.drop 16)
    rw [hlolen] at h
    calc beBytesToNat ((beBytes32 n).drop 16) < 256 ^ 16 := h
      _ = 2 ^ 128 := by norm_num
  have hn_split : n = 2 ^ 128 * beBytesToNat ((beBytes32 n).take 16) +
      beBytesToNat ((beBytes32 n).drop 16) := by
    have h1 : beBytesToNat ((beBytes32 n).take 16 ++ (beBytes32 n).drop 16) = n := by
      rw [List.take_append_drop]
      exact beBytesToNat_beBytes32 n
    rw [beBytesToNat_append, hlolen] at h1
    norm_num at h1 ⊢
    omega
  conv_rhs => rw [hn_split]
  rw [Nat.mul_add_mod, Nat.mod_eq_of_lt hlo_lt]

/-- Closed form of `to_enveloped_tx`: the slice conversion of the low 16
bytes always succeeds, so the call always returns `Ok`, with each fee field
reduced modulo `2 ^ 128`. -/
theorem SpanBatchEip1559TransactionData.to_enveloped_tx_eq
    (r : SpanBatchEip1559TransactionData) (nonce gas : Nat)
    (toAddr : Option (List Nat)) (chain_id : Nat) (signature : Signature)
    (hmf : r.max_fee_per_gas < 2 ^ 256)
    (hmp : r.max_priority_fee_per_gas < 2 ^ 256) :
    r.to_enveloped_tx nonce gas toAddr chain_id signature =
      .ok (.Eip1559
        { tx :=
          { chain_id := chain_id
            nonce := nonce
            gas_limit := gas
            max_fee_per_gas := r.max_fee_per_gas % 2 ^ 128
            max_priority_fee_per_gas := r.max_priority_fee_per_gas % 2 ^ 128
            toKind := match toAddr with
              | some a => .Call a
              | none => .Create
            value := r.value
            input := r.data
            access_list := r.access_list }
          signature := signature }) := by
  have h1 : tryInto16 ((beBytes32 r.max_fee_per_gas).drop 16) =
      .ok ((beBytes32 r.max_fee_per_gas).drop 16) := by
    rw [tryInto16, if_pos]
    rw [List.length_drop, beBytes32_length _ hmf]
  have h2 : tryInto16 ((beBytes32 r.max_priority_fee_per_gas).drop 16) =
      .ok ((beBytes32 r.max_priority_fee_per_gas).drop 16) := by
    rw [tryInto16, if_pos]
    rw [List.length_drop, beBytes32_length _ hmp]
  simp only [SpanBatchEip1559TransactionData.to_enveloped_tx, h1, h2,
    beBytesToNat_drop16_beBytes32 _ hmf, beBytesToNat_drop16_beBytes32 _ hmp]

/-! ### Truncation is always rejected at the list header -/

theorem decodeHeader_truncated (n : Nat) (payload : List Nat) (m : Nat)
    (hn : n < 2 ^ 64) (hp : payload.length = n) (hpos : 0 < n)
    (hm : m < (encodeHeader true n ++ payload).length) :
    decodeHeader ((encodeHeader true n ++ payload).take m) =
      .error .inputTooShort := by
  by_cases hs : n < 56
  · have henc : encodeHeader true n ++ payload = (0xc0 + n) :: payload := by
      simp [encodeHeader, if_pos hs]
    rw [henc] at hm ⊢
    rcases m with _ | k
    · simp [decodeHeader]
    · rw [List.take_succ_cons]
      have h1 : ¬ (0xc0 + n < 0x80) := by omega
      have h2 : ¬ (0xc0 + n ≤ 0xb7) := by omega
      have h3 : ¬ (0xc0 + n ≤ 0xbf) := by omega
      have h4 : 0xc0 + n ≤ 0xf7 := by omega
      have h5 : 0xc0 + n - 0xc0 = n := by omega
      have hk : k < n := by
        simp only [List.length_cons, hp] at hm
        omega
      have h6 : (payload.take k).length < n := by
        rw [List.length_take]
        omega
      simp only [decodeHeader]
      simp only [if_neg h1, if_neg h2, if_neg h3, if_pos h4, h5, if_pos h6]
  · obtain ⟨z, zs, hb⟩ : ∃ z zs, natToBeBytes n = z :: zs := by
      rcases h : natToBeBytes n with _ | ⟨z, zs⟩
      · rw [natToBeBytes_eq_nil_iff] at h; omega
      · exact ⟨z, zs, rfl⟩
    have hL8 : (z :: zs).length ≤ 8 := hb ▸ natToBeBytes_length_le n 8 hn
    have hz : z ≠ 0 := natToBeBytes_head_ne_zero n z zs hb
    have hvnum : beBytesToNat (z :: zs) = n := by
      rw [← hb, beBytesToNat_natToBeBytes]
    have henc : encodeHeader true n ++ payload =
        (0xf7 + (z :: zs).length) :: ((z :: zs) ++ payload) := by
      simp [encodeHeader, if_neg hs, hb]
    rw [henc] at hm ⊢
    rcases m with _ | k
    · simp [decodeHeader]
    · rw [List.take_succ_cons]
      have hLpos : 0 < (z :: zs).length := by simp
      have hb1 : ¬ (0xf7 + (z :: zs).length < 0x80) := by omega
      have hb2 : ¬ (0xf7 + (z :: zs).length ≤ 0xb7) := by omega
      have hb3 : ¬ (0xf7 + (z :: zs).length ≤ 0xbf) := by omega
      have hb4 : ¬ (0xf7 + (z :: zs).length ≤ 0xf7) := by omega
      have hb5 : 0xf7 + (z :: zs).length - 0xf7 = (z :: zs).length := by omega
      have hk : k < (z :: zs).length + n := by
        simp only [List.length_cons, List.length_append, hp] at hm
        simp only [List.length_cons] at hm ⊢
        omega
      simp only [decodeHeader]
      simp only [if_neg hb1, if_neg hb2, if_neg hb3, if_neg hb4, hb5,
        decodeLongHeader]
      rw [if_neg (by omega : ¬ 8 < (z :: zs).length)]
      by_cases hkL : k < (z :: zs).length
      · rw [if_pos (by rw [List.length_take, List.length_append]; omega)]
      · rw [if_neg (by rw [List.length_take, List.length_append]; omega)]
        have htk : ((z :: zs) ++ payload).take k =
            (z :: zs) ++ payload.take (k - (z :: zs).length) := by
          rw [List.take_append_eq_append_take,
            List.take_of_length_le (by omega)]
        simp only [htk, take_append_length, drop_append_length]
        simp only [if_neg hz, hvnum]
        rw [if_neg (by omega : ¬ n < 56)]
        rw [if_pos (by rw [List.length_take]; omega)]

/-- A header declaring more payload than the five fields consume is a hard
decode failure: the consumed-length check of `decode` fires. -/
theorem SpanBatchEip1559TransactionData.decodeTx_padded_header
    (r : SpanBatchEip1559TransactionData) (junk : List Nat) (hwf : r.Wf)
    (hj : junk ≠ []) (hsize : r.payload_length + junk.length < 2 ^ 64) :
    SpanBatchEip1559TransactionData.decodeTx
      (encodeHeader true (r.payload_length + junk.length) ++
        (encodeUint r.value ++ (encodeUint r.max_fee_per_gas ++
          (encodeUint r.max_priority_fee_per_gas ++ (encodeBytes r.data ++
            (encodeAccessList r.access_list ++ junk)))))) =
      .error (.custom "Invalid EIP-1559 transaction RLP") := by
  obtain ⟨hval, hmf, hmp, hdata, hal, hplen⟩ := hwf
  have hinner : (encodeUint r.value ++ (encodeUint r.max_fee_per_gas ++
      (encodeUint r.max_priority_fee_per_gas ++ (encodeBytes r.data ++
        (encodeAccessList r.access_list ++ junk))))).length =
      r.payload_length + junk.length := by
    simp only [List.length_append, encodeUint_length, encodeBytes_length,
      encodeAccessList_length, SpanBatchEip1559TransactionData.payload_length]
    omega
  have hdlen : r.data.length < 2 ^ 64 := by
    have h1 := length_le_rlpLenBytes r.data
    have h2 : rlpLenBytes r.data ≤ r.payload_length := by
      rw [SpanBatchEip1559TransactionData.payload_length]
      omega
    omega
  have halplen : accessListPayloadLen r.access_list < 2 ^ 64 := by
    have h2 : accessListPayloadLen r.access_list ≤ r.payload_length := by
      rw [SpanBatchEip1559TransactionData.payload_length, rlpLenAccessList]
      omega
    omega
  have hhdr := decodeHeader_encodeHeader true (r.payload_length + junk.length)
    (encodeUint r.value ++ (encodeUint r.max_fee_per_gas ++
      (encodeUint r.max_priority_fee_per_gas ++ (encodeBytes r.data ++
        (encodeAccessList r.access_list ++ junk))))) hsize
    (by intro h; exact absurd h (by simp)) (by rw [hinner])
  simp only [SpanBatchEip1559TransactionData.decodeTx, hhdr, if_pos]
  simp only [decodeU256_encodeUint r.value _ hval]
  simp only [decodeU256_encodeUint r.max_fee_per_gas _ hmf]
  simp only [decodeU256_encodeUint r.max_priority_fee_per_gas _ hmp]
  simp only [decodeBytesRlp, decodeBytesH_false_encodeBytes r.data _ hdata hdlen]
  simp only [decodeAccessList_encode r.access_list junk hal halplen]
  rw [if_neg]
  rw [hinner]
  have hjlen : 0 < junk.length := List.length_pos.mpr hj
  omega

/-! ## The claims

Each claim of the specification is settled by one theorem below.  The
concrete record of the repository's round-trip test,
`value = 0xFF`, `max_fee_per_gas = 0xEE`, `max_priority_fee_per_gas = 0xDD`,
`data = [0x01, 0x02, 0x03]`, empty access list, serves as the witness
input. -/

/-- The record used by the repository's `encode_eip1559_tx_data_roundtrip`
test. -/
def testRecord : SpanBatchEip1559TransactionData :=
  ⟨0xFF, 0xEE, 0xDD, [0x01, 0x02, 0x03], []⟩

/-- C1: the spec demands that a `max_fee_per_gas` above `2 ^ 128 - 1` be
rejected by `to_enveloped_tx` with
`SpanBatchError::Decoding(SpanDecodingError::InvalidTransactionData)`.  The
code instead returns `Ok`, truncating the fee to its low 128 bits: at
`max_fee_per_gas = 2 ^ 128` the envelope carries fee `0` — the `try_into`
of the 16-byte slice can never fail, so the error branch is dead code. -/
theorem claim1_fee_overflow_not_rejected :
    SpanBatchEip1559TransactionData.to_enveloped_tx
      ⟨0, 2 ^ 128, 0, [], []⟩ 0 0 none 1 ⟨0, 0, false⟩ =
      .ok (.Eip1559 ⟨⟨1, 0, 0, 0, 0, .Create, 0, [], []⟩, ⟨0, 0, false⟩⟩) := by
  have h := SpanBatchEip1559TransactionData.to_enveloped_tx_eq
    ⟨0, 2 ^ 128, 0, [], []⟩ 0 0 none 1 ⟨0, 0, false⟩
    (by norm_num) (by norm_num)
  rw [h]
  norm_num

/-- C10: `to_enveloped_tx` always returns `Ok` — its two error branches are
unreachable, because the `[16..]` slice of a 32-byte array always converts
into a 16-byte array — and each fee field is reduced modulo `2 ^ 128`,
including when it exceeds `2 ^ 128 - 1`. -/
theorem claim10_to_enveloped_tx_total
    (r : SpanBatchEip1559TransactionData) (nonce gas : Nat)
    (toAddr : Option (List Nat)) (chain_id : Nat) (signature : Signature)
    (hmf : r.max_fee_per_gas < 2 ^ 256)
    (hmp : r.max_priority_fee_per_gas < 2 ^ 256) :
    r.to_enveloped_tx nonce gas toAddr chain_id signature =
      .ok (.Eip1559
        { tx :=
          { chain_id := chain_id
            nonce := nonce
            gas_limit := gas
            max_fee_per_gas := r.max_fee_per_gas % 2 ^ 128
            max_priority_fee_per_gas := r.max_priority_fee_per_gas % 2 ^ 128
            toKind := match toAddr with
              | some a => .Call a
              | none => .Create
            value := r.value
            input := r.data
            access_list := r.access_list }
          signature := signature }) :=
  SpanBatchEip1559TransactionData.to_enveloped_tx_eq r nonce gas toAddr
    chain_id signature hmf hmp

/-- Witness for C10 at a fee value strictly above the 128-bit range. -/
theorem claim10_witness :
    (2 ^ 128 : Nat) < 2 ^ 256 ∧ (0xDD : Nat) < 2 ^ 256 ∧
      SpanBatchEip1559TransactionData.to_enveloped_tx
        ⟨7, 2 ^ 128, 0xDD, [], []⟩ 1 2 none 10 ⟨0, 0, false⟩ =
        .ok (.Eip1559 ⟨⟨10, 1, 2, 2 ^ 128 % 2 ^ 128, 0xDD % 2 ^ 128,
            .Create, 7, [], []⟩, ⟨0, 0, false⟩⟩) :=
  ⟨by norm_num, by norm_num,
    claim10_to_enveloped_tx_total ⟨7, 2 ^ 128, 0xDD, [], []⟩ 1 2 none 10
      ⟨0, 0, false⟩ (by norm_num) (by norm_num)⟩

/-- C2: decoding an encoded record succeeds and returns the record, with the
whole input consumed. -/
theorem claim2_decode_encode_roundtrip (r : SpanBatchEip1559TransactionData)
    (hwf : r.Wf) :
    SpanBatchEip1559TransactionData.decodeTx r.encodeTx = .ok (r, []) := by
  have h := r.decodeTx_encodeTx [] hwf
  rw [List.append_nil] at h
  exact h

/-- Witness for C2 at the repository test record. -/
theorem claim2_witness :
    testRecord.Wf ∧
      SpanBatchEip1559TransactionData.decodeTx testRecord.encodeTx =
        .ok (testRecord, []) :=
  ⟨by decide, claim2_decode_encode_roundtrip testRecord (by decide)⟩

/-- C3: whenever `decode` succeeds consuming its whole (valid-`u8`) input,
re-encoding the decoded record reproduces the input byte for byte. -/
theorem claim3_encode_decode_roundtrip (b : List Nat)
    (r : SpanBatchEip1559TransactionData)
    (hdec : SpanBatchEip1559TransactionData.decodeTx b = .ok (r, []))
    (hv : ValidBytes b) :
    r.encodeTx = b := by
  obtain ⟨hb, _⟩ := SpanBatchEip1559TransactionData.decodeTx_inv b r [] hdec hv
  rw [hb, List.append_nil]

/-- Witness for C3 at the encoding of the repository test record. -/
theorem claim3_witness :
    SpanBatchEip1559TransactionData.decodeTx
        [0xcb, 0x81, 0xff, 0x81, 0xee, 0x81, 0xdd, 0x83, 0x01, 0x02, 0x03, 0xc0] =
        .ok (testRecord, []) ∧
      ValidBytes
        [0xcb, 0x81, 0xff, 0x81, 0xee, 0x81, 0xdd, 0x83, 0x01, 0x02, 0x03, 0xc0] ∧
      testRecord.encodeTx =
        [0xcb, 0x81, 0xff, 0x81, 0xee, 0x81, 0xdd, 0x83, 0x01, 0x02, 0x03, 0xc0] :=
  ⟨by decide, by decide,
    claim3_encode_decode_roundtrip _ testRecord (by decide) (by decide)⟩

/-- C4 counterexample: appending a padding byte to the payload of a valid
encoded record does **not** yield a decode error — `decode` succeeds and
returns the original record, leaving the padding in the buffer. -/
theorem claim4_counterexample_padding_accepted :
    SpanBatchEip1559TransactionData.decodeTx
      [0xcb, 0x81, 0xff, 0x81, 0xee, 0x81, 0xdd, 0x83, 0x01, 0x02, 0x03, 0xc0,
        0x00] =
      .ok (testRecord, [0x00]) := by
  decide

/-- C4 (amended): (i) any truncation of an encoded record is rejected at the
list header with `InputTooShort`; (ii) a header declaring the padded payload
length is rejected by the consumed-length check; (iii) padding appended
after a valid encoding is never folded into the record: decode succeeds
exactly on the original record, with the padding left unconsumed. -/
theorem claim4_strict_length (r : SpanBatchEip1559TransactionData)
    (hwf : r.Wf) :
    (∀ m, m < r.encodeTx.length →
      SpanBatchEip1559TransactionData.decodeTx (r.encodeTx.take m) =
        .error .inputTooShort) ∧
    (∀ junk, junk ≠ [] → r.payload_length + junk.length < 2 ^ 64 →
      SpanBatchEip1559TransactionData.decodeTx
        (encodeHeader true (r.payload_length + junk.length) ++
          (encodeUint r.value ++ (encodeUint r.max_fee_per_gas ++
            (encodeUint r.max_priority_fee_per_gas ++ (encodeBytes r.data ++
              (encodeAccessList r.access_list ++ junk)))))) =
        .error (.custom "Invalid EIP-1559 transaction RLP")) ∧
    (∀ junk, SpanBatchEip1559TransactionData.decodeTx (r.encodeTx ++ junk) =
      .ok (r, junk)) := by
  refine ⟨?_, ?_, fun junk => r.decodeTx_encodeTx junk hwf⟩
  · intro m hm
    have hppos : 0 < r.payload_length := by
      have h1 : 0 < rlpLenUint r.value := by
        rw [rlpLenUint, lengthOfLength]
        split
        · norm_num
        · split <;> omega
      rw [SpanBatchEip1559TransactionData.payload_length]
      omega
    have hplen : r.payload_length < 2 ^ 64 := hwf.2.2.2.2.2
    have hpayl : (encodeUint r.value ++ encodeUint r.max_fee_per_gas ++
        encodeUint r.max_priority_fee_per_gas ++ encodeBytes r.data ++
        encodeAccessList r.access_list).length = r.payload_length := by
      simp only [List.length_append, encodeUint_length, encodeBytes_length,
        encodeAccessList_length, SpanBatchEip1559TransactionData.payload_length]
    have henc : r.encodeTx = encodeHeader true r.payload_length ++
        (encodeUint r.value ++ encodeUint r.max_fee_per_gas ++
          encodeUint r.max_priority_fee_per_gas ++ encodeBytes r.data ++
          encodeAccessList r.access_list) := by
      rw [SpanBatchEip1559TransactionData.encodeTx]
      simp [List.append_assoc]
    rw [henc] at hm ⊢
    have hhdr := decodeHeader_truncated r.payload_length _ m hplen hpayl
      hppos hm
    simp only [SpanBatchEip1559TransactionData.decodeTx, hhdr]
  · intro junk hj hsize
    exact r.decodeTx_padded_header junk hwf hj hsize

/-- Witness for C4 (amended) at the repository test record: a one-byte
truncation errors and one byte of padding is left unconsumed. -/
theorem claim4_witness :
    testRecord.Wf ∧
      SpanBatchEip1559TransactionData.decodeTx (testRecord.encodeTx.take 11) =
        .error .inputTooShort ∧
      SpanBatchEip1559TransactionData.decodeTx (testRecord.encodeTx ++ [0x00]) =
        .ok (testRecord, [0x00]) :=
  ⟨by decide,
    (claim4_strict_length testRecord (by decide)).1 11 (by decide),
    (claim4_strict_length testRecord (by decide)).2.2 [0x00]⟩

/-- C5: an input whose RLP header decodes as a scalar (non-list) is rejected
by `decode` with the `"Expected list data for EIP-1559 transaction"` error. -/
theorem claim5_scalar_header_rejected (buf : List Nat) (h : RlpHeader)
    (rest : List Nat) (hdec : decodeHeader buf = .ok (h, rest))
    (hnl : h.list = false) :
    SpanBatchEip1559TransactionData.decodeTx buf =
      .error (.custom "Expected list data for EIP-1559 transaction") := by
  simp only [SpanBatchEip1559TransactionData.decodeTx, hdec]
  rw [if_neg]
  rw [hnl]
  exact Bool.false_ne_true

/-- Witness for C5 at the RLP encoding of the empty string (`0x80`). -/
theorem claim5_witness :
    decodeHeader [0x80] = .ok (⟨false, 0⟩, []) ∧
      SpanBatchEip1559TransactionData.decodeTx [0x80] =
        .error (.custom "Expected list data for EIP-1559 transaction") :=
  ⟨by decide, claim5_scalar_header_rejected [0x80] ⟨false, 0⟩ [] (by decide) rfl⟩

/-- C6: `encode` emits a list header declaring exactly the total encoded
length of the five fields, followed by the fields in the canonical order
`value`, `max_fee_per_gas`, `max_priority_fee_per_gas`, `data`,
`access_list`. -/
theorem claim6_encode_shape (r : SpanBatchEip1559TransactionData) :
    r.encodeTx =
      encodeHeader true
        (encodeUint r.value ++ encodeUint r.max_fee_per_gas ++
          encodeUint r.max_priority_fee_per_gas ++ encodeBytes r.data ++
          encodeAccessList r.access_list).length ++
      (encodeUint r.value ++ encodeUint r.max_fee_per_gas ++
        encodeUint r.max_priority_fee_per_gas ++ encodeBytes r.data ++
        encodeAccessList r.access_list) := by
  have hlen : (encodeUint r.value ++ encodeUint r.max_fee_per_gas ++
      encodeUint r.max_priority_fee_per_gas ++ encodeBytes r.data ++
      encodeAccessList r.access_list).length = r.payload_length := by
    simp only [List.length_append, encodeUint_length, encodeBytes_length,
      encodeAccessList_length, SpanBatchEip1559TransactionData.payload_length]
  rw [hlen, SpanBatchEip1559TransactionData.encodeTx]
  simp [List.append_assoc]

/-- C7: when attributes validate but the L2 block-info fetch for
`cursor.block_info.number + 1` fails, the iteration leaves the cursor
unchanged (only the counter advances) and the loop proceeds to the next
iteration. -/
theorem claim7_fetch_failure_keeps_cursor (o : IterationOracle) (s : SyncState)
    (a : PayloadAttributesEnvelope) (e : FetchError)
    (rest : List IterationOracle)
    (hnext : o.next_attributes = some a) (hvalid : o.validate a = true)
    (hfetch : o.l2_block_info_by_number (s.cursor.block_info.number + 1) =
      .error e) :
    syncIteration o s = .next ⟨s.cursor, s.derived_attributes_count + 1⟩ ∧
      syncLoop s (o :: rest) =
        syncLoop ⟨s.cursor, s.derived_attributes_count + 1⟩ rest := by
  have h1 : syncIteration o s = .next ⟨s.cursor, s.derived_attributes_count + 1⟩ := by
    rw [syncIteration, hnext]
    simp [hvalid, hfetch]
  exact ⟨h1, by rw [syncLoop, h1]⟩

/-- Witness for C7. -/
theorem claim7_witness :
    syncIteration
        ⟨.stepped, some ⟨⟨⟨5, 0⟩⟩, 0⟩, fun _ => true, fun _ => .error ⟨1⟩⟩
        ⟨⟨⟨5, 0⟩⟩, 3⟩ =
      .next ⟨⟨⟨5, 0⟩⟩, 4⟩ :=
  (claim7_fetch_failure_keeps_cursor
    ⟨.stepped, some ⟨⟨⟨5, 0⟩⟩, 0⟩, fun _ => true, fun _ => .error ⟨1⟩⟩
    ⟨⟨⟨5, 0⟩⟩, 3⟩ ⟨⟨⟨5, 0⟩⟩, 0⟩ ⟨1⟩ [] rfl rfl rfl).1

/-- C8: a validation failure ends the run: `sync` returns immediately and no
further iteration of the loop executes, whatever oracle answers would have
followed. -/
theorem claim8_validation_failure_terminates (o : IterationOracle)
    (s : SyncState) (a : PayloadAttributesEnvelope)
    (rest : List IterationOracle)
    (hnext : o.next_attributes = some a) (hvalid : o.validate a = false) :
    syncLoop s (o :: rest) = .returned s := by
  have h1 : syncIteration o s = .terminated s := by
    rw [syncIteration, hnext]
    simp [hvalid]
  rw [syncLoop, h1]

/-- Witness for C8: the remaining script is non-empty yet never runs. -/
theorem claim8_witness :
    syncLoop ⟨⟨⟨5, 0⟩⟩, 3⟩
        (⟨.stepped, some ⟨⟨⟨5, 0⟩⟩, 0⟩, fun _ => false, fun _ => .error ⟨1⟩⟩ ::
          [⟨.stepped, none, fun _ => true, fun _ => .error ⟨1⟩⟩]) =
      .returned ⟨⟨⟨5, 0⟩⟩, 3⟩ :=
  claim8_validation_failure_terminates
    ⟨.stepped, some ⟨⟨⟨5, 0⟩⟩, 0⟩, fun _ => false, fun _ => .error ⟨1⟩⟩
    ⟨⟨⟨5, 0⟩⟩, 3⟩ ⟨⟨⟨5, 0⟩⟩, 0⟩ _ rfl rfl

/-- C9: the cursor is invariant across an iteration unless an attribute
envelope was returned, validated, and the follow-up L2 fetch succeeded — in
which case the iteration continues with the fetched block as the new
cursor.  The pipeline-step outcome never influences the cursor. -/
theorem claim9_cursor_invariant (o : IterationOracle) (s : SyncState) :
    (syncIteration o s).state.cursor = s.cursor ∨
      ∃ a bi, o.next_attributes = some a ∧ o.validate a = true ∧
        o.l2_block_info_by_number (s.cursor.block_info.number + 1) = .ok bi ∧
        syncIteration o s = .next ⟨bi, s.derived_attributes_count + 1⟩ := by
  rcases hnext : o.next_attributes with _ | a
  · left
    simp [syncIteration, hnext, IterationResult.state]
  · by_cases hval : o.validate a = true
    · rcases hfetch : o.l2_block_info_by_number (s.cursor.block_info.number + 1)
        with e | bi
      · left
        simp [syncIteration, hnext, hval, hfetch, IterationResult.state]
      · right
        refine ⟨a, bi, rfl, hval, rfl, ?_⟩
        simp [syncIteration, hnext, hval, hfetch]
    · left
      simp [syncIteration, hnext, hval, IterationResult.state]

end Kona
